import Mathlib

/-!
Verification of the law-tree construction, rule-code compilation and
evaluation/scoring core of the `code_as_auditors` repository.

The Lean definitions below are shallow embeddings of the Python sources:

* `method/evaluate_performance.py` — per-case TP/FP/TN/FN scoring and
  variable-name normalisation (`run_single_case_specific_code`,
  `_normalise_var_name`);
* `method/code_generation/legal_code_builder.py` — the law-tree builder
  (`build_law_tree`) and the rule-code compiler (`emit_node` /
  `generate_traversal_code`); the code the compiler emits is modelled as a
  small statement language `PStmt` together with an interpreter giving the
  Python meaning of the emitted `try`/`if`/assignment/call statements;
* `method/utils/law_parser.py` — the record store (`article_to_json_list`,
  `_collect_subtree`);
* `method/code_generation/case_specific_code_builder.py` — the checklist
  resolver loop (`generate_case_specific_codes`) and case sampling
  (`get_case_data`).

Machine floats in the scorer are modelled as exact rationals; Python
exceptions are modelled with `Option`/`Except`; Python's unbounded recursion
in `_collect_subtree` is modelled with an explicit fuel parameter (fuel
exhaustion playing the role of `RecursionError`).
-/

namespace CodeAsAuditors

/-! ### Scoring (`method/evaluate_performance.py`, `run_single_case_specific_code`)

The scorer receives the predicted non-compliant variable set parsed from a
case run, the ground-truth set for the case, and the set of all known
ground-truth variable names across the dataset.  Lines 166–184 of
`evaluate_performance.py` compute the four bookkeeping sets and the three
metrics; `0.0` guards replace the divisions when the denominators would be
empty.  Floats are modelled as rationals (the divisions and comparisons
involved are exact in the guarded cases the claims describe). -/

structure CaseScore where
  tp : Finset String
  fp : Finset String
  fnv : Finset String
  tn : Finset String
  precision : ℚ
  recallv : ℚ
  f1 : ℚ

/-- Embedding of the set/metric computation in `run_single_case_specific_code`
(`evaluate_performance.py` lines 166–184): `candidate_articles` is
`known_articles ∪ predicted_set`, then `tp/fp/fn/tn` and the guarded
precision/recallv/F1. -/
def run_single_case_score (predicted actual known : Finset String) : CaseScore :=
  let candidate := known ∪ predicted
  let tpSet := predicted ∩ actual
  let fpSet := predicted \ actual
  let fnSet := actual \ predicted
  let tnSet := (candidate \ actual) \ predicted
  let precision : ℚ :=
    if tpSet ≠ ∅ ∨ fpSet ≠ ∅ then (tpSet.card : ℚ) / ((tpSet.card : ℚ) + (fpSet.card : ℚ)) else 0
  let recallv : ℚ :=
    if tpSet ≠ ∅ ∨ fnSet ≠ ∅ then (tpSet.card : ℚ) / ((tpSet.card : ℚ) + (fnSet.card : ℚ)) else 0
  let f1 : ℚ :=
    if precision + recallv ≠ 0 then 2 * precision * recallv / (precision + recallv) else 0
  { tp := tpSet, fp := fpSet, fnv := fnSet, tn := tnSet,
    precision := precision, recallv := recallv, f1 := f1 }


/-! ### Variable-name normalisation (`method/evaluate_performance.py`, `_normalise_var_name`)

`_normalise_var_name` strips the raw string, cuts it at the first `[`,
re-strips, tries the anchored regex `^(LAW_[A-Z0-9]+(?:_[A-Z0-9]+)?)` (a
case-sensitive prefix match returning the matched group), and otherwise
upper-cases the `_`-separated tokens, stopping before the first non-leading
token that starts with `P` or `S`.  Strings are modelled as `List Char`;
`Char.toUpper` matches Python `str.upper` on the ASCII inputs involved. -/

/-- The regex character class `[A-Z0-9]`. -/
def isVarChar (c : Char) : Bool := c.isUpper || c.isDigit

/-- Python `str.strip()`: drop leading and trailing whitespace. -/
def pyStrip (s : List Char) : List Char :=
  ((s.dropWhile Char.isWhitespace).reverse.dropWhile Char.isWhitespace).reverse

/-- Python `stripped[:stripped.find("[")]` (the whole string when `[` is absent). -/
def cutBracket (s : List Char) : List Char := s.takeWhile (fun c => c ≠ '[')

/-- What `^(LAW_[A-Z0-9]+(?:_[A-Z0-9]+)?)` matches after the literal `LAW_`:
one greedy `[A-Z0-9]+` group and an optional second `_[A-Z0-9]+` group. -/
def matchVarTail (rest : List Char) : Option (List Char) :=
  if rest.takeWhile isVarChar = [] then none
  else
    match rest.drop (rest.takeWhile isVarChar).length with
    | c :: rest2 =>
      if c = '_' then
        if rest2.takeWhile isVarChar = [] then some (rest.takeWhile isVarChar)
        else some (rest.takeWhile isVarChar ++ '_' :: rest2.takeWhile isVarChar)
      else some (rest.takeWhile isVarChar)
    | [] => some (rest.takeWhile isVarChar)

/-- `_VAR_NAME_PATTERN.match(stripped)`: anchored prefix match of
`LAW_[A-Z0-9]+(?:_[A-Z0-9]+)?`, returning `group(1)`. -/
def matchVarPattern (s : List Char) : Option (List Char) :=
  match s with
  | a :: b :: c :: d :: rest =>
    if a = 'L' ∧ b = 'A' ∧ c = 'W' ∧ d = '_' then
      (matchVarTail rest).map (fun t => 'L' :: 'A' :: 'W' :: '_' :: t)
    else none
  | _ => none

/-- Python `stripped.split("_")` (`"".split("_") == [""]`). -/
def splitUnderscore : List Char → List (List Char)
  | [] => [[]]
  | c :: rest =>
    if c = '_' then [] :: splitUnderscore rest
    else
      match splitUnderscore rest with
      | [] => [[c]]
      | t :: ts => (c :: t) :: ts

/-- Python `token.upper()` (per-character ASCII upper-casing). -/
def upperToken (t : List Char) : List Char := t.map Char.toUpper

/-- Python `token_upper.startswith("P") or token_upper.startswith("S")`. -/
def startsPS (u : List Char) : Bool := u.head? == some 'P' || u.head? == some 'S'

/-- The token loop body for indices `idx ≥ 1`: upper-case each token, breaking
at the first token that starts with `P` or `S`. -/
def tokenTail : List (List Char) → List (List Char)
  | [] => []
  | t :: ts =>
    if startsPS (upperToken t) then [] else upperToken t :: tokenTail ts

/-- The full token loop: the `idx == 0` token is always kept (upper-cased,
exempt from the `P`/`S` break), then `tokenTail` for the rest. -/
def normalizedParts (tokens : List (List Char)) : List (List Char) :=
  match tokens with
  | [] => []
  | t :: ts => upperToken t :: tokenTail ts

/-- Python `"_".join(normalized_parts)`. -/
def joinUnderscore (parts : List (List Char)) : List Char := List.intercalate ['_'] parts

/-- The fallback branch of `_normalise_var_name` when the regex fails
(including the dead `if not normalized_parts` branch of the source). -/
def normaliseTokenPath (s1 : List Char) : List Char :=
  if normalizedParts (splitUnderscore s1) = [] then s1.map Char.toUpper
  else joinUnderscore (normalizedParts (splitUnderscore s1))

/-- Embedding of `_normalise_var_name` (`evaluate_performance.py` lines 41–64). -/
def normalise_var_name (raw : List Char) : List Char :=
  if pyStrip raw = [] then []
  else
    match matchVarPattern (pyStrip (cutBracket (pyStrip raw))) with
    | some m => m
    | none => normaliseTokenPath (pyStrip (cutBracket (pyStrip raw)))


/-! ### Law-tree construction (`method/code_generation/legal_code_builder.py`,
`build_law_tree`, lines 302–335; `code_to_tree.py` has an identical copy)

`build_law_tree` first indexes every record by id (raising on a missing/empty
id and on a duplicate id), then attaches each record either directly under
the synthetic root (class `조`) or under `node_index.get(record["parent"])`,
falling back to the root when that lookup fails.  The mutable
`LawNode.add_child` calls are modelled as an ordered log of attachment
events `(parent key, child id)`: the children list of a node is the ordered
sublist of events naming it as parent, and a child's `parent` back-reference
is the parent key of its (last) attachment event. -/

/-- A law record as consumed by `build_law_tree`: `id`, `class` (named
`rclass` here since `class` is a Lean keyword) and `parent`.  A missing id or
parent is the empty string / `none`. -/
structure LawRecord where
  id : String
  rclass : String
  parent : Option String
  deriving DecidableEq

/-- The parent slot of an attachment: the synthetic `ROOT` node of
`build_law_tree` or an indexed record. -/
inductive ParentKey where
  | root
  | node (id : String)
  deriving DecidableEq

/-- One `add_child` event: `(parent, child id)`. -/
abbrev Attachment := ParentKey × String

/-- The first loop of `build_law_tree`: build the id index, raising
`ValueError` on an empty/missing id or a duplicate id. -/
def buildNodeIndex : List LawRecord → List String → Except String (List String)
  | [], acc => .ok acc
  | r :: rs, acc =>
    if r.id = "" then .error "Encountered record without an id field."
    else if r.id ∈ acc then .error ("Duplicate node id detected: " ++ r.id)
    else buildNodeIndex rs (acc ++ [r.id])

/-- Where the second loop of `build_law_tree` attaches one record: `조`
records go under the root; otherwise `node_index.get(parent)` with the fully
built index, falling back to the root. -/
def resolveParent (ids : List String) (r : LawRecord) : ParentKey :=
  if r.rclass = "조" then .root
  else
    match r.parent with
    | some p => if p ∈ ids then .node p else .root
    | none => .root

/-- The second loop of `build_law_tree`: one `add_child` event per record, in
input order. -/
def attachRecords (ids : List String) (records : List LawRecord) : List Attachment :=
  records.map (fun r => (resolveParent ids r, r.id))

/-- Embedding of `build_law_tree` (`legal_code_builder.py` lines 302–335). -/
def build_law_tree (records : List LawRecord) : Except String (List Attachment) :=
  match buildNodeIndex records [] with
  | .error e => .error e
  | .ok ids => .ok (attachRecords ids records)

/-- The children list of a node: the ordered child ids of its attachment
events (this is exactly the order `add_child` appends). -/
def childrenOf (t : List Attachment) (p : ParentKey) : List String :=
  (t.filter (fun e => e.1 = p)).map (fun e => e.2)


/-! ### Checklist resolution and case sampling
(`method/code_generation/case_specific_code_builder.py`)

`generate_case_specific_codes` walks the checklist-variable assignments of
the template (regex matches `(var, question)` in order), resolving each
question through `tick_checklist` — an external LLM call returning the JSON
field `answer`, a bool or a string — memoised per stripped question text in
`checklist_cache`, defaulting to `False` when the call raises.  The external
call is modelled as an oracle `String → Option PyAnswer` (`none` = raised
exception), and the run is modelled as a fold that records the cache, the
log of performed external calls, and the variable assignments produced.
`get_case_data` samples cases with `random.Random(RANDOM_SEED)`;
`random.Random(seed).sample` is a pure function of the seed and its
arguments, modelled as an explicit `sample` function parameter. -/

/-- The JSON `answer` value returned by `tick_checklist`: a string or bool. -/
inductive PyAnswer where
  | astr (s : String)
  | abool (b : Bool)
  deriving DecidableEq

/-- Lines 136–140: a string answer is `strip().lower() == "true"`, anything
else goes through `bool(...)`. -/
def coerce_answer : PyAnswer → Bool
  | .astr s => s.trim.toLower == "true"
  | .abool b => b

/-- The boolean a fresh resolution of `key` produces: `False` when the
external call raises (lines 132–135), otherwise the coerced answer. -/
def answer_for (tick : String → Option PyAnswer) (key : String) : Bool :=
  match tick key with
  | none => false
  | some a => coerce_answer a

/-- The state threaded through `replace_var`: the memo cache, the log of
external `tick_checklist` invocations (by question key), and the variable
assignments written into the generated file. -/
structure ResolveState where
  cache : List (String × Bool)
  calls : List String
  assignments : List (String × Bool)

/-- Python `checklist_cache` lookup (`question_key not in checklist_cache`). -/
def cacheLookup (cache : List (String × Bool)) (k : String) : Option Bool :=
  (cache.find? (fun e => e.1 = k)).map (fun e => e.2)

/-- One `replace_var` call on a match `(var, question)` (lines 117–145):
matches without a question are returned unchanged; otherwise the stripped
question is resolved through the cache, calling the external classifier only
on a miss. -/
def process_checklist_var (tick : String → Option PyAnswer) (st : ResolveState)
    (m : String × String) : ResolveState :=
  if m.2 = "" then st
  else
    match cacheLookup st.cache (m.2.trim) with
    | some b => { st with assignments := st.assignments ++ [(m.1, b)] }
    | none =>
      { cache := st.cache ++ [(m.2.trim, answer_for tick m.2.trim)],
        calls := st.calls ++ [m.2.trim],
        assignments := st.assignments ++ [(m.1, answer_for tick m.2.trim)] }

/-- Embedding of the checklist-resolution loop of
`generate_case_specific_codes`: `var_pattern.sub(replace_var, ...)` processes
the matches in order with a fresh cache per case. -/
def generate_case_specific_codes (tick : String → Option PyAnswer)
    (ms : List (String × String)) : ResolveState :=
  ms.foldl (process_checklist_var tick) ⟨[], [], []⟩

/-- The fixed seed (`case_specific_code_builder.py` line 24). -/
def RANDOM_SEED : Nat := 42

/-- Embedding of `get_case_data` (lines 49–58): the full case list when
`num >= len(cases)`, otherwise `random.Random(RANDOM_SEED).sample(cases, num)`
— a pure function of the constant seed, the list and `num`, abstracted as the
`sample` argument. -/
def get_case_data {α : Type} (sample : Nat → List α → Nat → List α)
    (cases : List α) (num : Nat) : List α :=
  if num ≥ cases.length then cases
  else sample RANDOM_SEED cases num


/-! ### The rule-code compiler and the semantics of the emitted units
(`method/code_generation/legal_code_builder.py`, `emit_node` inside
`generate_traversal_code`, lines 120–232)

`emit_node` writes, for each law node, a Python function

`def visit_<var>(): try: <body> except Exception: record_error(<var>)`

whose body is: when the stripped `condition_pseudocode` is non-empty, an
`if <condition>:` block that sets `<var>['condition'] = True`, calls
`visit_<child var>()` for every child whose `var_name` is truthy (others are
skipped), runs each non-blank `action_pseudocode` line, and, when the
stripped `legal_pseudocode` is non-empty, runs
`if not (<legal>): <var>['legal'] = False`; when the condition is empty, the
child calls are emitted unconditionally (with a `pass` if there is nothing
else).  The emitted statements are modelled by the little language `PStmt`
and emission by `emit_node_body`/`emit_node`; a fuel-indexed interpreter
(`runStmt`/`runStmts`/`runUnit`) gives the Python meaning of those
statements: boolean expressions and action lines are evaluated by an
`Oracle` (returning `none` models a raised exception), `callUnit` looks the
callee up among the defined units (a missing name is a `NameError`,
modelled as an exception, and fuel exhaustion models `RecursionError`), and
the `try/except` wrapper of a unit turns any escaped exception into a
`record_error` entry.  Python `str.strip` is `pyStripStr` (the `List Char`
strip, which evaluates by `decide`).  `describedRun` is the second, claim-side
description of one unit's behaviour, written from the specification text; the
C1 theorem proves the emitted unit's interpretation equal to it. -/

/-- Python `str.strip` on `String`, via the executable `pyStrip`. -/
def pyStripStr (s : String) : String := String.mk (pyStrip s.toList)


/-- A law node as seen by the compiler: `data["var_name"]` (empty string for
missing), the three pseudocode fields, and the ordered children. -/
inductive LawNode where
  | mk (var_name : String) (condition_pseudocode action_pseudocode legal_pseudocode : Option String)
      (children : List LawNode)

def LawNode.var_name : LawNode → String
  | .mk v _ _ _ _ => v

def LawNode.condition_pseudocode : LawNode → Option String
  | .mk _ c _ _ _ => c

def LawNode.action_pseudocode : LawNode → Option String
  | .mk _ _ a _ _ => a

def LawNode.legal_pseudocode : LawNode → Option String
  | .mk _ _ _ l _ => l

def LawNode.children : LawNode → List LawNode
  | .mk _ _ _ _ cs => cs

/-- The statement forms `emit_node` writes into a unit body. -/
inductive PStmt where
  | sIf (cond : String) (body : List PStmt)
  | sIfNot (cond : String) (body : List PStmt)
  | setConditionTrue (v : String)
  | setLegalFalse (v : String)
  | callUnit (fname : String)
  | actionLine (text : String)
  | sPass

/-- Python `action_line.rstrip()`. -/
def rstripStr (s : String) : String :=
  String.mk ((s.toList.reverse.dropWhile Char.isWhitespace).reverse)

/-- The `action_expr.splitlines()` loop: non-blank lines, right-stripped
(lines 173–178). -/
def nonBlankActionLines (action : String) : List String :=
  ((action.splitOn "\n").filter (fun l => pyStripStr l ≠ "")).map rstripStr

/-- The child-call loop (lines 165–169 and 185–190): one `visit_<var>()` call
per child with a truthy `var_name`; the rest are skipped. -/
def childCallStmts (children : List LawNode) : List PStmt :=
  children.filterMap (fun c =>
    if c.var_name = "" then none
    else some (PStmt.callUnit ("visit_" ++ pyStripStr c.var_name)))

/-- The statements `emit_node` places inside the `try:` of one unit
(lines 152–193). -/
def emit_node_body (n : LawNode) : List PStmt :=
  if pyStripStr (n.condition_pseudocode.getD "") ≠ "" then
    [PStmt.sIf (pyStripStr (n.condition_pseudocode.getD ""))
      ([PStmt.setConditionTrue n.var_name] ++
       childCallStmts n.children ++
       (if pyStripStr (n.action_pseudocode.getD "") ≠ "" then
          (nonBlankActionLines (n.action_pseudocode.getD "")).map PStmt.actionLine
        else []) ++
       (if pyStripStr (n.legal_pseudocode.getD "") ≠ "" then
          [PStmt.sIfNot (pyStripStr (n.legal_pseudocode.getD ""))
            [PStmt.setLegalFalse n.var_name]]
        else []))]
  else
    if (childCallStmts n.children).isEmpty then [PStmt.sPass]
    else childCallStmts n.children

/-- One emitted `def visit_<var>(): try: <body> except: record_error(<var>)`. -/
structure EmittedUnit where
  fname : String
  body : List PStmt
  errVar : String

/-- Emission of one node's unit; `_function_name_for` raises `ValueError` when
the stripped `var_name` is empty (lines 109–113). -/
def emit_node (n : LawNode) : Except String EmittedUnit :=
  if pyStripStr n.var_name = "" then
    .error "Node lacks var_name, cannot generate function name."
  else
    .ok { fname := "visit_" ++ pyStripStr n.var_name,
          body := emit_node_body n,
          errVar := n.var_name }

mutual
/-- The recursive emission of lines 198–199: a node's unit followed by its
children's units in pre-order, failing on the first node without a usable
`var_name`. -/
def emit_subtree : LawNode → Except String (List EmittedUnit)
  | .mk v c a l cs =>
    match emit_node (.mk v c a l cs) with
    | .error e => .error e
    | .ok u =>
      match emit_forest cs with
      | .error e => .error e
      | .ok rest => .ok (u :: rest)

def emit_forest : List LawNode → Except String (List EmittedUnit)
  | [] => .ok []
  | c :: cs =>
    match emit_subtree c with
    | .error e => .error e
    | .ok us =>
      match emit_forest cs with
      | .error e => .error e
      | .ok vs => .ok (us ++ vs)
end

/-- The run-time state of the generated program: each law variable's
`['condition']` and `['legal']` entries and the `ERROR_LINES` log. -/
structure RunState where
  cond : String → Bool
  legal : String → Bool
  errors : List String

/-- Evaluation of the free-form pseudocode expressions and action lines;
`none` models a raised Python exception (e.g. an undefined variable). -/
structure Oracle where
  evalExpr : String → RunState → Option Bool
  runAction : String → RunState → Option RunState

/-- Result of running statements: normal completion or an exception carrying
the state at the raise point (Python exceptions do not roll back state). -/
inductive Outcome where
  | ok (s : RunState)
  | exc (s : RunState)

def setCondTrue (v : String) (s : RunState) : RunState :=
  { s with cond := fun x => if x = v then true else s.cond x }

def setLegalFalseState (v : String) (s : RunState) : RunState :=
  { s with legal := fun x => if x = v then false else s.legal x }

/-- The generated `record_error`: appends
`f"{law_var}에서 시행 오류가 발생했다"` ("<var> encountered an execution
error") to `ERROR_LINES` (`generate_code_source` lines 250–251). -/
def record_error (v : String) (s : RunState) : RunState :=
  { s with errors := s.errors ++ [v ++ "에서 시행 오류가 발생했다"] }

/-- Python name resolution for `visit_<var>()` calls: the last `def` with that
name wins; a miss is a `NameError`. -/
def lookupUnit (units : List EmittedUnit) (fname : String) : Option EmittedUnit :=
  units.reverse.find? (fun u => u.fname = fname)

mutual
/-- Python semantics of one emitted statement (fuel bounds call depth;
running out models `RecursionError`). -/
def runStmt (ω : Oracle) (units : List EmittedUnit) : Nat → PStmt → RunState → Outcome
  | fuel, .sIf c body, s =>
    match ω.evalExpr c s with
    | none => .exc s
    | some true => runStmts ω units fuel body s
    | some false => .ok s
  | fuel, .sIfNot c body, s =>
    match ω.evalExpr c s with
    | none => .exc s
    | some true => .ok s
    | some false => runStmts ω units fuel body s
  | _, .setConditionTrue v, s => .ok (setCondTrue v s)
  | _, .setLegalFalse v, s => .ok (setLegalFalseState v s)
  | fuel, .callUnit f, s =>
    match lookupUnit units f with
    | none => .exc s
    | some u =>
      match fuel with
      | 0 => .exc s
      | fuel' + 1 => .ok (runUnit ω units fuel' u s)
  | _, .actionLine t, s =>
    match ω.runAction t s with
    | none => .exc s
    | some s' => .ok s'
  | _, .sPass, s => .ok s
termination_by fuel st s => (fuel, sizeOf st)

def runStmts (ω : Oracle) (units : List EmittedUnit) : Nat → List PStmt → RunState → Outcome
  | _, [], s => .ok s
  | fuel, st :: rest, s =>
    match runStmt ω units fuel st s with
    | .exc s' => .exc s'
    | .ok s' => runStmts ω units fuel rest s'
termination_by fuel l s => (fuel, sizeOf l)

def runUnit (ω : Oracle) (units : List EmittedUnit) : Nat → EmittedUnit → RunState → RunState
  | fuel, ⟨_, body, errVar⟩, s =>
    match runStmts ω units fuel body s with
    | .ok s' => s'
    | .exc s' => record_error errVar s'
termination_by fuel u s => (fuel, sizeOf u)
end



/-- Sequencing of outcomes: an exception aborts the rest of the block. -/
def obind : Outcome → (RunState → Outcome) → Outcome
  | .exc s, _ => .exc s
  | .ok s, f => f s

/-- Claim-side description: invoke the unit of every child whose node has a
`var_name`, skipping the others. -/
def describedChildInvocations (ω : Oracle) (units : List EmittedUnit) (fuel : Nat) :
    List LawNode → RunState → Outcome
  | [], s => .ok s
  | c :: cs, s =>
    if c.var_name = "" then describedChildInvocations ω units fuel cs s
    else
      match lookupUnit units ("visit_" ++ pyStripStr c.var_name) with
      | none => .exc s
      | some u =>
        match fuel with
        | 0 => .exc s
        | fuel' + 1 => describedChildInvocations ω units fuel cs (runUnit ω units fuel' u s)

/-- Claim-side description: execute each non-blank action line in order. -/
def describedActions (ω : Oracle) : List String → RunState → Outcome
  | [], s => .ok s
  | a :: rest, s =>
    match ω.runAction a s with
    | none => .exc s
    | some s' => describedActions ω rest s'

/-- Claim-side description: when `legal_pseudocode` is non-empty and evaluates
false, set the node's `legal = False`. -/
def describedLegal (ω : Oracle) (legalExpr v : String) (s : RunState) : Outcome :=
  if legalExpr ≠ "" then
    match ω.evalExpr legalExpr s with
    | none => .exc s
    | some false => .ok (setLegalFalseState v s)
    | some true => .ok s
  else .ok s

/-- The unit's `try/except` wrapper: an escaped exception becomes an error
log entry for the unit's variable. -/
def handleOutcome (v : String) : Outcome → RunState
  | .ok s => s
  | .exc s => record_error v s

/-- Claim-side description of one compiled unit, written from the C1/C2
specification text: with a non-empty condition the unit evaluates it and only
when it is true sets `condition = true`, invokes the `var_name`-bearing
children, executes the non-blank action lines and applies the legal check;
with an empty condition it invokes the children unconditionally; any
exception inside is caught and recorded against the node's `var_name`. -/
def describedRun (ω : Oracle) (units : List EmittedUnit) (fuel : Nat) (n : LawNode)
    (s : RunState) : RunState :=
  if pyStripStr (n.condition_pseudocode.getD "") ≠ "" then
    match ω.evalExpr (pyStripStr (n.condition_pseudocode.getD "")) s with
    | none => record_error n.var_name s
    | some false => s
    | some true =>
      handleOutcome n.var_name
        (obind (describedChildInvocations ω units fuel n.children
            (setCondTrue n.var_name s)) (fun s1 =>
          obind (if pyStripStr (n.action_pseudocode.getD "") ≠ "" then
              describedActions ω (nonBlankActionLines (n.action_pseudocode.getD "")) s1
            else .ok s1) (fun s2 =>
            describedLegal ω (pyStripStr (n.legal_pseudocode.getD "")) n.var_name s2)))
  else
    handleOutcome n.var_name (describedChildInvocations ω units fuel n.children s)


-- =========================================================================
-- C8: law_parser.py — id/children indexes and article_to_json_list subtree
-- =========================================================================

structure LawEntry where
  id : String
  parent : Option String
  rclass : String
  deriving DecidableEq

def idIndex (entries : List LawEntry) (i : String) : Option LawEntry :=
  entries.reverse.find? (fun e => e.id = i)

def childrenIndex (entries : List LawEntry) (p : String) : List String :=
  entries.filterMap (fun e =>
    if e.parent = some p ∧ p ≠ "" then some e.id else none)

def collectChildList (collect : String → Option (List LawEntry)) :
    List String → Option (List LawEntry)
  | [] => some []
  | c :: cs =>
    match collect c with
    | none => none
    | some l1 =>
      match collectChildList collect cs with
      | none => none
      | some l2 => some (l1 ++ l2)

def collectSubtree (entries : List LawEntry) : Nat → String → Option (List LawEntry)
  | 0, _ => none
  | fuel + 1, i =>
    match idIndex entries i with
    | none => none
    | some e =>
      match collectChildList (collectSubtree entries fuel) (childrenIndex entries i) with
      | none => none
      | some rest => some (e :: rest)

inductive LawParserError where
  | notFound
  | invalidNode
  | recursionError
  deriving DecidableEq

def article_to_json_list (entries : List LawEntry) (fuel : Nat) (articleId : String) :
    Except LawParserError (List LawEntry) :=
  match idIndex entries articleId with
  | none => .error .notFound
  | some a =>
    if a.rclass ≠ "조" then .error .invalidNode
    else
      match collectSubtree entries fuel articleId with
      | none => .error .recursionError
      | some l => .ok l

inductive Reaches (entries : List LawEntry) (root : String) : String → Prop
  | refl : Reaches entries root root
  | step {e : LawEntry} {p : String} : e ∈ entries → e.parent = some p → p ≠ "" →
      Reaches entries root p → Reaches entries root e.id

def Before (a b : LawEntry) (l : List LawEntry) : Prop :=
  ∃ l1 l2, l = l1 ++ l2 ∧ a ∈ l1 ∧ b ∈ l2

def sampleLawEntries : List LawEntry :=
  [⟨"A", none, "조"⟩, ⟨"B", some "A", "항"⟩, ⟨"C", some "B", "호"⟩]

def sampleLawRank : String → Nat :=
  fun i => if i = "A" then 2 else if i = "B" then 1 else 0

end CodeAsAuditors

namespace CodeAsAuditors

/-- C3: the per-case scorer computes `tp = predicted ∩ actual`,
`fp = predicted − actual`, `fn = actual − predicted`,
`tn = (known ∪ predicted) − actual − predicted`, precision and recallv as the
guarded ratios (0 when both contributing sets are empty), and
`f1 = 2·p·r/(p+r)` (0 when `p+r = 0`); empty predicted and actual give all
three metrics 0, and `predicted = actual ≠ ∅` gives all three metrics 1. -/
theorem scorer_sets_and_metrics (predicted actual known : Finset String) :
    (run_single_case_score predicted actual known).tp = predicted ∩ actual ∧
    (run_single_case_score predicted actual known).fp = predicted \ actual ∧
    (run_single_case_score predicted actual known).fnv = actual \ predicted ∧
    (run_single_case_score predicted actual known).tn =
      ((known ∪ predicted) \ actual) \ predicted ∧
    (run_single_case_score predicted actual known).precision =
      (if predicted ∩ actual ≠ ∅ ∨ predicted \ actual ≠ ∅ then
        ((predicted ∩ actual).card : ℚ) /
          (((predicted ∩ actual).card : ℚ) + ((predicted \ actual).card : ℚ)) else 0) ∧
    (run_single_case_score predicted actual known).recallv =
      (if predicted ∩ actual ≠ ∅ ∨ actual \ predicted ≠ ∅ then
        ((predicted ∩ actual).card : ℚ) /
          (((predicted ∩ actual).card : ℚ) + ((actual \ predicted).card : ℚ)) else 0) ∧
    (run_single_case_score predicted actual known).f1 =
      (if (run_single_case_score predicted actual known).precision +
          (run_single_case_score predicted actual known).recallv ≠ 0 then
        2 * (run_single_case_score predicted actual known).precision *
          (run_single_case_score predicted actual known).recallv /
          ((run_single_case_score predicted actual known).precision +
            (run_single_case_score predicted actual known).recallv) else 0) ∧
    (predicted = ∅ → actual = ∅ →
      (run_single_case_score predicted actual known).precision = 0 ∧
      (run_single_case_score predicted actual known).recallv = 0 ∧
      (run_single_case_score predicted actual known).f1 = 0) ∧
    (predicted = actual → predicted ≠ ∅ →
      (run_single_case_score predicted actual known).precision = 1 ∧
      (run_single_case_score predicted actual known).recallv = 1 ∧
      (run_single_case_score predicted actual known).f1 = 1) := by
  refine ⟨rfl, rfl, rfl, rfl, rfl, rfl, rfl, ?_, ?_⟩
  · rintro rfl rfl
    simp [run_single_case_score]
  · rintro rfl hne
    have hcap : predicted ∩ predicted = predicted := Finset.inter_self predicted
    have hdiff : predicted \ predicted = ∅ := Finset.sdiff_self predicted
    have hposNat : 0 < predicted.card :=
      Finset.card_pos.mpr (Finset.nonempty_iff_ne_empty.mpr hne)
    have hpos : ((predicted.card : ℚ)) ≠ 0 := by
      exact_mod_cast hposNat.ne'
    have hprec : (run_single_case_score predicted predicted known).precision = 1 := by
      simp only [run_single_case_score, hcap, hdiff]
      rw [if_pos (Or.inl hne)]
      simp [hpos]
    have hrec : (run_single_case_score predicted predicted known).recallv = 1 := by
      simp only [run_single_case_score, hcap, hdiff]
      rw [if_pos (Or.inl hne)]
      simp [hpos]
    refine ⟨hprec, hrec, ?_⟩
    show (run_single_case_score predicted predicted known).f1 = 1
    have : (run_single_case_score predicted predicted known).f1 =
        (if (run_single_case_score predicted predicted known).precision +
            (run_single_case_score predicted predicted known).recallv ≠ 0 then
          2 * (run_single_case_score predicted predicted known).precision *
            (run_single_case_score predicted predicted known).recallv /
            ((run_single_case_score predicted predicted known).precision +
              (run_single_case_score predicted predicted known).recallv) else 0) := rfl
    rw [this, hprec, hrec]
    norm_num

/-- Witness for `scorer_sets_and_metrics` at concrete sets. -/
theorem scorer_sets_and_metrics_witness :
    (run_single_case_score {"LAW_A26_P7"} {"LAW_A26_P7"} ∅).precision = 1 ∧
    (run_single_case_score {"LAW_A26_P7"} {"LAW_A26_P7"} ∅).recallv = 1 ∧
    (run_single_case_score {"LAW_A26_P7"} {"LAW_A26_P7"} ∅).f1 = 1 ∧
    (run_single_case_score (∅ : Finset String) ∅ ∅).precision = 0 := by
  have hne : ({"LAW_A26_P7"} : Finset String) ≠ ∅ := Finset.singleton_ne_empty _
  refine ⟨?_, ?_, ?_, ?_⟩
  · exact ((scorer_sets_and_metrics {"LAW_A26_P7"} {"LAW_A26_P7"} ∅).2.2.2.2.2.2.2.2 rfl hne).1
  · exact ((scorer_sets_and_metrics {"LAW_A26_P7"} {"LAW_A26_P7"} ∅).2.2.2.2.2.2.2.2 rfl hne).2.1
  · exact ((scorer_sets_and_metrics {"LAW_A26_P7"} {"LAW_A26_P7"} ∅).2.2.2.2.2.2.2.2 rfl hne).2.2
  · exact ((scorer_sets_and_metrics (∅ : Finset String) ∅ ∅).2.2.2.2.2.2.2.1 rfl rfl).1


/-! ### Lemmas for the normalisation function -/

/-- Characters of the regex class are not whitespace. -/
lemma isVarChar_not_ws {c : Char} (h : isVarChar c = true) : c.isWhitespace = false := by
  have h2 : c.isUpper = true ∨ c.isDigit = true := by simpa [isVarChar] using h
  rcases h2 with h' | h' <;>
  · simp only [Char.isUpper, Char.isDigit, Bool.and_eq_true, decide_eq_true_eq] at h'
    simp only [Char.isWhitespace, Bool.or_eq_false_iff]
    refine ⟨⟨⟨?_, ?_⟩, ?_⟩, ?_⟩ <;>
    · simp only [decide_eq_false_iff_not, Char.ext_iff]
      intro hc
      rw [hc] at h'
      revert h'
      decide

/-- Characters of the regex class are not an opening bracket. -/
lemma isVarChar_ne_bracket {c : Char} (h : isVarChar c = true) : c ≠ '[' := by
  have h2 : c.isUpper = true ∨ c.isDigit = true := by simpa [isVarChar] using h
  rcases h2 with h' | h' <;>
  · simp only [Char.isUpper, Char.isDigit, Bool.and_eq_true, decide_eq_true_eq] at h'
    intro hc
    rw [hc] at h'
    revert h'
    decide

lemma dropWhile_eq_self_of {α : Type} {p : α → Bool} {s : List α}
    (h : ∀ c ∈ s, p c = false) : s.dropWhile p = s := by
  cases s with
  | nil => rfl
  | cons a l =>
    exact List.dropWhile_cons_of_neg (by simp [h a (List.mem_cons_self a l)])

lemma pyStrip_eq_self {s : List Char} (h : ∀ c ∈ s, c.isWhitespace = false) :
    pyStrip s = s := by
  unfold pyStrip
  rw [dropWhile_eq_self_of h,
    dropWhile_eq_self_of (fun c hc => h c (List.mem_reverse.mp hc)),
    List.reverse_reverse]

lemma cutBracket_eq_self {s : List Char} (h : ∀ c ∈ s, c ≠ '[') :
    cutBracket s = s := by
  unfold cutBracket
  exact List.takeWhile_eq_self_iff.mpr (fun c hc => by simpa using h c hc)

/-- A nonempty all-`[A-Z0-9]` string matches the regex tail as itself. -/
lemma matchVarTail_all_var {x : List Char} (hall : ∀ c ∈ x, isVarChar c = true)
    (hne : x ≠ []) : matchVarTail x = some x := by
  unfold matchVarTail
  rw [List.takeWhile_eq_self_iff.mpr hall, if_neg hne, List.drop_length]

/-- A two-group canonical string matches the regex tail as itself. -/
lemma matchVarTail_concat {x y : List Char} (hx : ∀ c ∈ x, isVarChar c = true)
    (hy : ∀ c ∈ y, isVarChar c = true) (hxe : x ≠ []) (hye : y ≠ []) :
    matchVarTail (x ++ '_' :: y) = some (x ++ '_' :: y) := by
  have h1 : (x ++ '_' :: y).takeWhile isVarChar = x := by
    rw [List.takeWhile_append_of_pos (by simpa using hx)]
    rw [List.takeWhile_cons_of_neg (by decide)]
    simp
  unfold matchVarTail
  rw [h1, if_neg hxe, List.drop_left]
  split
  next c rest2 heq =>
    injection heq with hc hrest
    subst hc; subst hrest
    rw [if_pos rfl, List.takeWhile_eq_self_iff.mpr hy, if_neg hye]
  next heq => exact absurd heq (by simp)

/-- Every output of the regex tail consists of `[A-Z0-9_]` characters and
re-matches as itself. -/
lemma matchVarTail_shape {rest t : List Char} (h : matchVarTail rest = some t) :
    (∀ c ∈ t, isVarChar c = true ∨ c = '_') ∧ matchVarTail t = some t := by
  unfold matchVarTail at h
  split at h
  · exact absurd h (by simp)
  · rename_i hx
    have hallx : ∀ c ∈ rest.takeWhile isVarChar, isVarChar c = true :=
      fun c hc => List.mem_takeWhile_imp hc
    split at h
    case _ c rest2 heq =>
      split at h
      · rename_i hc
        split at h
        · obtain rfl : rest.takeWhile isVarChar = t := Option.some.inj h
          exact ⟨fun c hc => Or.inl (hallx c hc), matchVarTail_all_var hallx hx⟩
        · rename_i hy
          have hally : ∀ c ∈ rest2.takeWhile isVarChar, isVarChar c = true :=
            fun c hc => List.mem_takeWhile_imp hc
          obtain rfl :
              rest.takeWhile isVarChar ++ '_' :: rest2.takeWhile isVarChar = t :=
            Option.some.inj h
          refine ⟨?_, matchVarTail_concat hallx hally hx hy⟩
          intro ch hch
          rcases List.mem_append.mp hch with hm | hm
          · exact Or.inl (hallx ch hm)
          · rcases List.mem_cons.mp hm with hm | hm
            · exact Or.inr hm
            · exact Or.inl (hally ch hm)
      · obtain rfl : rest.takeWhile isVarChar = t := Option.some.inj h
        exact ⟨fun c hc => Or.inl (hallx c hc), matchVarTail_all_var hallx hx⟩
    case _ heq =>
      obtain rfl : rest.takeWhile isVarChar = t := Option.some.inj h
      exact ⟨fun c hc => Or.inl (hallx c hc), matchVarTail_all_var hallx hx⟩

/-- Every output of the full pattern has only `LAW_`-alphabet characters and
re-matches as itself. -/
lemma matchVarPattern_fix {s m : List Char} (h : matchVarPattern s = some m) :
    (∀ c ∈ m, isVarChar c = true ∨ c = '_' ∨ c = 'L' ∨ c = 'A' ∨ c = 'W') ∧
    matchVarPattern m = some m := by
  unfold matchVarPattern at h
  split at h
  case _ a b c d rest =>
    split at h
    · rename_i habcd
      obtain ⟨rfl, rfl, rfl, rfl⟩ := habcd
      cases hmt : matchVarTail rest with
      | none => rw [hmt] at h; simp at h
      | some t =>
        rw [hmt] at h
        simp only [Option.map_some'] at h
        obtain rfl : 'L' :: 'A' :: 'W' :: '_' :: t = m := Option.some.inj h
        have hspec := matchVarTail_shape hmt
        constructor
        · intro ch hch
          simp only [List.mem_cons] at hch
          rcases hch with rfl | rfl | rfl | rfl | hch
          · exact Or.inr (Or.inr (Or.inl rfl))
          · exact Or.inr (Or.inr (Or.inr (Or.inl rfl)))
          · exact Or.inr (Or.inr (Or.inr (Or.inr rfl)))
          · exact Or.inr (Or.inl rfl)
          · rcases hspec.1 ch hch with h' | h'
            · exact Or.inl h'
            · exact Or.inr (Or.inl h')
        · simp [matchVarPattern, hspec.2]
    · exact absurd h (by simp)
  · exact absurd h (by simp)

/-- Pattern outputs are untouched by stripping and bracket-cutting. -/
lemma matchVarPattern_strip_fix {s m : List Char} (h : matchVarPattern s = some m) :
    pyStrip m = m ∧ cutBracket m = m ∧ m ≠ [] := by
  obtain ⟨hmem, hfix⟩ := matchVarPattern_fix h
  have hws : ∀ c ∈ m, c.isWhitespace = false := by
    intro c hc
    rcases hmem c hc with h' | h' | h' | h' | h'
    · exact isVarChar_not_ws h'
    all_goals (subst h'; decide)
  have hbr : ∀ c ∈ m, c ≠ '[' := by
    intro c hc
    rcases hmem c hc with h' | h' | h' | h' | h'
    · exact isVarChar_ne_bracket h'
    all_goals (subst h'; decide)
  refine ⟨pyStrip_eq_self hws, cutBracket_eq_self hbr, ?_⟩
  intro he
  rw [he] at hfix
  exact absurd hfix (by decide)

/-- When the regex path fires, normalisation returns the matched group. -/
lemma normalise_eq_of_match {x m : List Char}
    (h : matchVarPattern (pyStrip (cutBracket (pyStrip x))) = some m) :
    normalise_var_name x = m := by
  have hne : pyStrip x ≠ [] := by
    intro he
    rw [he] at h
    have h0 : matchVarPattern (pyStrip (cutBracket ([] : List Char))) = none := by decide
    rw [h0] at h
    exact Option.noConfusion h
  unfold normalise_var_name
  rw [if_neg hne, h]

/-- C4 counterexample: normalisation is not idempotent on every string.  On
the input `law_a_b_c` the first pass upper-cases the four tokens to
`LAW_A_B_C`, but a second pass now enters the case-sensitive regex path,
which keeps only two groups after `LAW_` and returns `LAW_A_B`. -/
theorem normalise_var_name_not_idempotent :
    normalise_var_name (normalise_var_name "law_a_b_c".toList) ≠
      normalise_var_name "law_a_b_c".toList := by decide

/-- C4 (amended): normalisation is idempotent on every input whose
bracket-stripped, whitespace-stripped form matches the canonical
`LAW_[A-Z0-9]+(?:_[A-Z0-9]+)?` pattern — then `normalise x` is the matched
group and a second application fixes it — and in particular
`normalise("LAW_A26_P7[\'legal\']") = normalise("LAW_A26_P7") = "LAW_A26_P7"`.
Unrestricted idempotence fails (see `normalise_var_name_not_idempotent`). -/
theorem normalise_var_name_idempotent_on_canonical (x m : List Char)
    (h : matchVarPattern (pyStrip (cutBracket (pyStrip x))) = some m) :
    normalise_var_name x = m ∧
    normalise_var_name (normalise_var_name x) = normalise_var_name x ∧
    normalise_var_name "LAW_A26_P7[\'legal\']".toList = "LAW_A26_P7".toList ∧
    normalise_var_name "LAW_A26_P7".toList = "LAW_A26_P7".toList := by
  have h1 := normalise_eq_of_match h
  obtain ⟨hstrip, hcut, hne⟩ := matchVarPattern_strip_fix h
  have hfix := (matchVarPattern_fix h).2
  have h2 : normalise_var_name m = m := by
    have hmatch : matchVarPattern (pyStrip (cutBracket (pyStrip m))) = some m := by
      rw [hstrip, hcut, hstrip, hfix]
    exact normalise_eq_of_match hmatch
  refine ⟨h1, ?_, by decide, by decide⟩
  rw [h1]
  exact h2

/-- Witness for `normalise_var_name_idempotent_on_canonical` at the spec
example input. -/
theorem normalise_var_name_idempotent_on_canonical_witness :
    normalise_var_name "LAW_A26_P7[\'legal\']".toList = "LAW_A26_P7".toList ∧
    normalise_var_name (normalise_var_name "LAW_A26_P7[\'legal\']".toList) =
      normalise_var_name "LAW_A26_P7[\'legal\']".toList :=
  ⟨(normalise_var_name_idempotent_on_canonical "LAW_A26_P7[\'legal\']".toList
      "LAW_A26_P7".toList (by decide)).1,
   (normalise_var_name_idempotent_on_canonical "LAW_A26_P7[\'legal\']".toList
      "LAW_A26_P7".toList (by decide)).2.1⟩


/-! ### Lemmas and claims for the law-tree builder -/

lemma not_nodup_of_dup {α : Type} (a : α) (A B C : List α) :
    ¬ (A ++ (a :: (B ++ (a :: C)))).Nodup := by
  intro h
  have h1 : (a :: (B ++ (a :: C))).Nodup := h.of_append_right
  exact (List.nodup_cons.mp h1).1 (List.mem_append_right B (List.mem_cons_self a C))

lemma countP_eq_one_of_nodup {α : Type} {l : List α} {p : α → Bool} {a : α}
    (hnd : l.Nodup) (ha : a ∈ l) (hp : p a = true)
    (huniq : ∀ x ∈ l, p x = true → x = a) : l.countP p = 1 := by
  induction l with
  | nil => cases ha
  | cons b l ih =>
    rw [List.countP_cons]
    rcases List.mem_cons.mp ha with rfl | ha2
    · have hzero : l.countP p = 0 := by
        rw [List.countP_eq_zero]
        intro x hx hpx
        have hxa := huniq x (List.mem_cons_of_mem _ hx) hpx
        subst hxa
        exact (List.nodup_cons.mp hnd).1 hx
      rw [hzero, hp]
      simp
    · have hb : p b = false := by
        by_contra hb2
        have hba : b = a := huniq b (List.mem_cons_self _ _) (by simpa using hb2)
        subst hba
        exact (List.nodup_cons.mp hnd).1 ha2
      rw [ih (List.nodup_cons.mp hnd).2 ha2
        (fun x hx hpx => huniq x (List.mem_cons_of_mem _ hx) hpx), hb]
      simp

/-- Successful indexing returns the ids in order and certifies that they are
distinct and nonempty. -/
lemma buildNodeIndex_ok {rs : List LawRecord} {acc ids : List String}
    (h : buildNodeIndex rs acc = .ok ids) :
    ids = acc ++ rs.map (fun r => r.id) ∧ (rs.map (fun r => r.id)).Nodup ∧
    (∀ r ∈ rs, r.id ≠ "" ∧ r.id ∉ acc) := by
  induction rs generalizing acc with
  | nil =>
    simp only [buildNodeIndex] at h
    obtain rfl : acc = ids := Except.ok.inj h
    simp
  | cons r rs ih =>
    unfold buildNodeIndex at h
    by_cases h1 : r.id = ""
    · rw [if_pos h1] at h; exact absurd h (by simp)
    · rw [if_neg h1] at h
      by_cases h2 : r.id ∈ acc
      · rw [if_pos h2] at h; exact absurd h (by simp)
      · rw [if_neg h2] at h
        obtain ⟨hids, hnd, hall⟩ := ih h
        refine ⟨?_, ?_, ?_⟩
        · rw [hids]; simp
        · simp only [List.map_cons, List.nodup_cons]
          refine ⟨?_, hnd⟩
          intro hmem
          obtain ⟨x, hx, hxid⟩ := List.mem_map.mp hmem
          exact (hall x hx).2 (by simp [hxid])
        · intro x hx
          rcases List.mem_cons.mp hx with rfl | hx'
          · exact ⟨h1, h2⟩
          · refine ⟨(hall x hx').1, fun hmem => (hall x hx').2 ?_⟩
            simp [hmem]

/-- With no empty ids, indexing either succeeds or fails with the
duplicate-id message. -/
lemma buildNodeIndex_error_form {rs : List LawRecord} {acc : List String}
    (hne : ∀ r ∈ rs, r.id ≠ "") :
    (∃ ids, buildNodeIndex rs acc = .ok ids) ∨
    (∃ d, buildNodeIndex rs acc = .error ("Duplicate node id detected: " ++ d)) := by
  induction rs generalizing acc with
  | nil => exact Or.inl ⟨acc, rfl⟩
  | cons r rs ih =>
    unfold buildNodeIndex
    rw [if_neg (hne r (List.mem_cons_self r rs))]
    by_cases hmem : r.id ∈ acc
    · rw [if_pos hmem]; exact Or.inr ⟨r.id, rfl⟩
    · rw [if_neg hmem]
      exact ih (fun x hx => hne x (List.mem_cons_of_mem r hx))

/-- A successful build attaches with the full index and distinct ids. -/
lemma build_law_tree_ok {records : List LawRecord} {t : List Attachment}
    (h : build_law_tree records = .ok t) :
    t = attachRecords (records.map (fun r => r.id)) records ∧
    (records.map (fun r => r.id)).Nodup := by
  unfold build_law_tree at h
  cases hidx : buildNodeIndex records [] with
  | error e => rw [hidx] at h; exact absurd h (by simp)
  | ok ids =>
    rw [hidx] at h
    obtain ⟨hids, hnd, _⟩ := buildNodeIndex_ok hidx
    obtain rfl : attachRecords ids records = t := Except.ok.inj h
    rw [hids]
    simp only [List.nil_append]
    exact ⟨trivial, hnd⟩

/-- C7: two records sharing an id make tree construction fail before any tree
is returned: the builder never returns `ok`, and when the shared id is a real
(nonempty) id — the only way records can be otherwise well-formed — the error
is the duplicate-id error.  The duplicate check runs in the indexing pass,
before any attachment happens, so no partial structure is observable. -/
theorem build_law_tree_duplicate_id_fails (records l1 l2 l3 : List LawRecord)
    (r1 r2 : LawRecord) (hsplit : records = l1 ++ (r1 :: (l2 ++ (r2 :: l3))))
    (hdup : r1.id = r2.id) :
    (∀ t, build_law_tree records ≠ Except.ok t) ∧
    ((∀ r ∈ records, r.id ≠ "") →
      ∃ d, build_law_tree records = Except.error ("Duplicate node id detected: " ++ d)) := by
  have hnotok : ∀ t, build_law_tree records ≠ Except.ok t := by
    intro t h
    obtain ⟨_, hnd⟩ := build_law_tree_ok h
    rw [hsplit, List.map_append, List.map_cons, List.map_append, List.map_cons,
      ← hdup] at hnd
    exact not_nodup_of_dup r1.id _ _ _ hnd
  refine ⟨hnotok, fun hne => ?_⟩
  rcases @buildNodeIndex_error_form records [] hne with ⟨ids, hok⟩ | ⟨d, herr⟩
  · exfalso
    apply hnotok (attachRecords ids records)
    unfold build_law_tree
    rw [hok]
  · refine ⟨d, ?_⟩
    unfold build_law_tree
    rw [herr]

/-- Witness for `build_law_tree_duplicate_id_fails` on a two-record input
sharing the id `A`. -/
theorem build_law_tree_duplicate_id_fails_witness :
    (∀ t, build_law_tree [⟨"A", "조", none⟩, ⟨"A", "항", some "X"⟩] ≠ Except.ok t) ∧
    (∃ d, build_law_tree [⟨"A", "조", none⟩, ⟨"A", "항", some "X"⟩] =
      Except.error ("Duplicate node id detected: " ++ d)) := by
  have h := build_law_tree_duplicate_id_fails
    [⟨"A", "조", none⟩, ⟨"A", "항", some "X"⟩] [] [] []
    ⟨"A", "조", none⟩ ⟨"A", "항", some "X"⟩ rfl rfl
  exact ⟨h.1, h.2 (by decide)⟩

/-- C6 counterexample: the builder does not detect or refuse self-parenting.
On the single record `{id: A, class: 항, parent: A}` construction succeeds and
attaches the node to itself (`node_index.get("A")` returns the node being
attached), so `A` is its own parent and its own ancestor. -/
theorem self_parenting_not_refused :
    build_law_tree [⟨"A", "항", some "A"⟩] = Except.ok [(ParentKey.node "A", "A")] ∧
    "A" ∈ childrenOf [(ParentKey.node "A", "A")] (ParentKey.node "A") :=
  ⟨rfl, by decide⟩

/-- C6 (amended): on every accepted input each record is attached exactly
once — its attachment event is in the log, it is the only event carrying that
child id (so the id appears in exactly one children list, exactly once, and
the parent back-reference points to that parent) — but the builder does NOT
refuse self-parenting: a record whose parent equals its own id is attached to
itself, so the acyclicity part of the original claim fails (see
`self_parenting_not_refused`). -/
theorem attach_exactly_once (records : List LawRecord) (t : List Attachment)
    (hok : build_law_tree records = .ok t) (r : LawRecord) (hr : r ∈ records) :
    (resolveParent (records.map (fun x => x.id)) r, r.id) ∈ t ∧
    (∀ e ∈ t, e.2 = r.id → e = (resolveParent (records.map (fun x => x.id)) r, r.id)) ∧
    t.countP (fun e => e.2 = r.id) = 1 ∧
    (r.rclass ≠ "조" → r.parent = some r.id → (ParentKey.node r.id, r.id) ∈ t) := by
  obtain ⟨rfl, hnd⟩ := build_law_tree_ok hok
  have hinj : ∀ x ∈ records, ∀ y ∈ records, x.id = y.id → x = y := by
    intro x hx y hy hxy
    exact List.inj_on_of_nodup_map hnd hx hy hxy
  have hmem : (resolveParent (records.map fun x => x.id) r, r.id) ∈
      attachRecords (records.map fun x => x.id) records :=
    List.mem_map.mpr ⟨r, hr, rfl⟩
  have huniq : ∀ e ∈ attachRecords (records.map fun x => x.id) records, e.2 = r.id →
      e = (resolveParent (records.map fun x => x.id) r, r.id) := by
    intro e he h2
    obtain ⟨x, hx, rfl⟩ := List.mem_map.mp he
    have hxr : x = r := hinj x hx r hr h2
    rw [hxr]
  have hrecnd : records.Nodup := List.Nodup.of_map _ hnd
  have htnd : (attachRecords (records.map fun x => x.id) records).Nodup := by
    refine List.Nodup.map_on ?_ hrecnd
    intro x hx y hy hxy
    exact hinj x hx y hy (congrArg Prod.snd hxy)
  refine ⟨hmem, huniq, ?_, ?_⟩
  · refine countP_eq_one_of_nodup htnd hmem (by simp) ?_
    intro x hx hpx
    exact huniq x hx (by simpa using hpx)
  · intro hcls hpar
    have hpmem : r.id ∈ records.map (fun x => x.id) := List.mem_map.mpr ⟨r, hr, rfl⟩
    have hres : resolveParent (records.map fun x => x.id) r = ParentKey.node r.id := by
      simp [resolveParent, hcls, hpar, hpmem]
    exact hres ▸ hmem

/-- Witness for `attach_exactly_once` on the self-parenting single record. -/
theorem attach_exactly_once_witness :
    (ParentKey.node "A", "A") ∈ [(ParentKey.node "A", "A")] ∧
    List.countP (fun e => e.2 = "A") [(ParentKey.node "A", "A")] = 1 := by
  have h := attach_exactly_once [⟨"A", "항", some "A"⟩] [(ParentKey.node "A", "A")] rfl
    ⟨"A", "항", some "A"⟩ (by decide)
  exact ⟨h.2.2.2 (by decide) rfl, h.2.2.1⟩

/-- C5 counterexample: a record whose declared parent appears LATER in the
input is still attached under that parent, not under the root, because the id
index is fully built before any attachment: on
`[{id: B, parent: A, class: 항}, {id: A, class: 조}]` the builder puts `B`
under `A` even though `A` was not yet seen when `B` was processed. -/
theorem forward_parent_resolved_not_root :
    build_law_tree [⟨"B", "항", some "A"⟩, ⟨"A", "조", none⟩] =
      Except.ok [(ParentKey.node "A", "B"), (ParentKey.root, "A")] ∧
    "B" ∈ childrenOf [(ParentKey.node "A", "B"), (ParentKey.root, "A")] (ParentKey.node "A") ∧
    "B" ∉ childrenOf [(ParentKey.node "A", "B"), (ParentKey.root, "A")] ParentKey.root :=
  ⟨rfl, by decide, by decide⟩

/-- C5 (amended): on every accepted input, a record of class `조` is attached
directly under the synthetic root, and every other record is attached under
its declared parent whenever that parent id occurs anywhere in the record
list (input order is irrelevant: the index is completed before attachment),
and under the root exactly when the parent field is absent or its id occurs
nowhere in the list. -/
theorem attach_resolution (records : List LawRecord) (t : List Attachment)
    (hok : build_law_tree records = .ok t) (r : LawRecord) (hr : r ∈ records) :
    (r.rclass = "조" → (ParentKey.root, r.id) ∈ t) ∧
    (r.rclass ≠ "조" → ∀ p, r.parent = some p → p ∈ records.map (fun x => x.id) →
      (ParentKey.node p, r.id) ∈ t) ∧
    (r.rclass ≠ "조" → r.parent = none → (ParentKey.root, r.id) ∈ t) ∧
    (r.rclass ≠ "조" → ∀ p, r.parent = some p → p ∉ records.map (fun x => x.id) →
      (ParentKey.root, r.id) ∈ t) := by
  obtain ⟨rfl, hnd⟩ := build_law_tree_ok hok
  have hmem : (resolveParent (records.map fun x => x.id) r, r.id) ∈
      attachRecords (records.map fun x => x.id) records :=
    List.mem_map.mpr ⟨r, hr, rfl⟩
  refine ⟨?_, ?_, ?_, ?_⟩
  · intro hcls
    have hres : resolveParent (records.map fun x => x.id) r = ParentKey.root := by
      simp [resolveParent, hcls]
    exact hres ▸ hmem
  · intro hcls p hpar hp
    have hres : resolveParent (records.map fun x => x.id) r = ParentKey.node p := by
      simp [resolveParent, hcls, hpar, hp]
    exact hres ▸ hmem
  · intro hcls hpar
    have hres : resolveParent (records.map fun x => x.id) r = ParentKey.root := by
      simp [resolveParent, hcls, hpar]
    exact hres ▸ hmem
  · intro hcls p hpar hp
    have hres : resolveParent (records.map fun x => x.id) r = ParentKey.root := by
      simp [resolveParent, hcls, hpar, hp]
    exact hres ▸ hmem

/-- Witness for `attach_resolution` on the forward-reference input. -/
theorem attach_resolution_witness :
    (ParentKey.node "A", "B") ∈ [(ParentKey.node "A", "B"), (ParentKey.root, "A")] ∧
    (ParentKey.root, "A") ∈ [(ParentKey.node "A", "B"), (ParentKey.root, "A")] := by
  have hB := attach_resolution [⟨"B", "항", some "A"⟩, ⟨"A", "조", none⟩]
    [(ParentKey.node "A", "B"), (ParentKey.root, "A")] rfl ⟨"B", "항", some "A"⟩ (by decide)
  have hA := attach_resolution [⟨"B", "항", some "A"⟩, ⟨"A", "조", none⟩]
    [(ParentKey.node "A", "B"), (ParentKey.root, "A")] rfl ⟨"A", "조", none⟩ (by decide)
  exact ⟨hB.2.1 (by decide) "A" rfl (by decide), hA.1 rfl⟩


/-! ### Lemmas and claims for the checklist resolver and case sampling -/

lemma cacheLookup_some {cache : List (String × Bool)} {k : String} {b : Bool}
    (h : cacheLookup cache k = some b) : (k, b) ∈ cache := by
  unfold cacheLookup at h
  cases hf : cache.find? (fun e => e.1 = k) with
  | none => rw [hf] at h; exact absurd h (by simp)
  | some e =>
    rw [hf] at h
    have he : e ∈ cache := List.mem_of_find?_eq_some hf
    have hk : e.1 = k := by
      have := List.find?_some hf
      simpa using this
    have hb : e.2 = b := by simpa using h
    have hekb : e = (k, b) := Prod.ext hk hb
    rw [← hekb]
    exact he

lemma cacheLookup_none {cache : List (String × Bool)} {k : String}
    (h : cacheLookup cache k = none) : ∀ b, (k, b) ∉ cache := by
  intro b hb
  unfold cacheLookup at h
  cases hf : cache.find? (fun e => e.1 = k) with
  | some e => rw [hf] at h; exact absurd h (by simp)
  | none =>
    have := List.find?_eq_none.mp hf (k, b) hb
    simp at this

/-- Invariant-carrying induction over the checklist fold: the cache always
holds `answer_for` values, cache keys and call log coincide, the call log
stays duplicate-free, and every question-bearing match is assigned the value
of its stripped question. -/
lemma generate_fold_spec (tick : String → Option PyAnswer) (ms : List (String × String)) :
    ∀ st : ResolveState,
      (∀ k b, (k, b) ∈ st.cache → b = answer_for tick k) →
      (∀ k, (∃ b, (k, b) ∈ st.cache) ↔ k ∈ st.calls) →
      st.calls.Nodup →
      (ms.foldl (process_checklist_var tick) st).assignments =
        st.assignments ++ (ms.filter (fun m => m.2 ≠ "")).map
          (fun m => (m.1, answer_for tick m.2.trim)) ∧
      (∀ k b, (k, b) ∈ (ms.foldl (process_checklist_var tick) st).cache →
        b = answer_for tick k) ∧
      (∀ k, (∃ b, (k, b) ∈ (ms.foldl (process_checklist_var tick) st).cache) ↔
        k ∈ (ms.foldl (process_checklist_var tick) st).calls) ∧
      (ms.foldl (process_checklist_var tick) st).calls.Nodup := by
  induction ms with
  | nil =>
    intro st h1 h2 h3
    exact ⟨by simp, h1, h2, h3⟩
  | cons m ms ih =>
    intro st h1 h2 h3
    rw [List.foldl_cons]
    by_cases hq : m.2 = ""
    · have hst : process_checklist_var tick st m = st := by
        unfold process_checklist_var
        rw [if_pos hq]
      rw [hst]
      obtain ⟨ha, hb, hc, hd⟩ := ih st h1 h2 h3
      refine ⟨?_, hb, hc, hd⟩
      rw [ha, List.filter_cons, if_neg (by simpa using hq)]
    · cases hlook : cacheLookup st.cache (m.2.trim) with
      | some b =>
        have hst : process_checklist_var tick st m =
            { st with assignments := st.assignments ++ [(m.1, b)] } := by
          unfold process_checklist_var
          rw [if_neg hq, hlook]
        rw [hst]
        have hbval : b = answer_for tick (m.2.trim) := h1 _ _ (cacheLookup_some hlook)
        obtain ⟨ha, hb2, hc, hd⟩ :=
          ih { st with assignments := st.assignments ++ [(m.1, b)] } h1 h2 h3
        refine ⟨?_, hb2, hc, hd⟩
        rw [ha, List.filter_cons, if_pos (by simpa using hq)]
        simp [hbval]
      | none =>
        have hst : process_checklist_var tick st m =
            { cache := st.cache ++ [(m.2.trim, answer_for tick m.2.trim)],
              calls := st.calls ++ [m.2.trim],
              assignments := st.assignments ++ [(m.1, answer_for tick m.2.trim)] } := by
          unfold process_checklist_var
          rw [if_neg hq, hlook]
        rw [hst]
        have hnotin : m.2.trim ∉ st.calls := by
          intro hmem
          obtain ⟨b, hb⟩ := (h2 (m.2.trim)).mpr hmem
          exact cacheLookup_none hlook b hb
        have h1' : ∀ k b, (k, b) ∈ st.cache ++ [(m.2.trim, answer_for tick m.2.trim)] →
            b = answer_for tick k := by
          intro k b hkb
          rcases List.mem_append.mp hkb with hkb | hkb
          · exact h1 k b hkb
          · simp at hkb
            rw [hkb.1, hkb.2]
        have h2' : ∀ k, (∃ b, (k, b) ∈ st.cache ++ [(m.2.trim, answer_for tick m.2.trim)]) ↔
            k ∈ st.calls ++ [m.2.trim] := by
          intro k
          constructor
          · rintro ⟨b, hb⟩
            rcases List.mem_append.mp hb with hb | hb
            · exact List.mem_append_left _ ((h2 k).mp ⟨b, hb⟩)
            · simp at hb
              simp [hb.1]
          · intro hk
            rcases List.mem_append.mp hk with hk | hk
            · obtain ⟨b, hb⟩ := (h2 k).mpr hk
              exact ⟨b, List.mem_append_left _ hb⟩
            · simp at hk
              exact ⟨answer_for tick (m.2.trim), by simp [hk]⟩
        have h3' : (st.calls ++ [m.2.trim]).Nodup := by
          rw [List.nodup_append]
          exact ⟨h3, List.nodup_singleton _, by simpa using hnotin⟩
        obtain ⟨ha, hb2, hc, hd⟩ :=
          ih { cache := st.cache ++ [(m.2.trim, answer_for tick m.2.trim)],
               calls := st.calls ++ [m.2.trim],
               assignments := st.assignments ++ [(m.1, answer_for tick m.2.trim)] }
            h1' h2' h3'
        refine ⟨?_, hb2, hc, hd⟩
        rw [ha, List.filter_cons, if_pos (by simpa using hq)]
        simp

/-- C9: every question-bearing checklist variable is assigned the resolution
of its stripped question text, which is `false` whenever the external
classification call fails (the run does not crash); the classifier is
invoked at most once per distinct stripped question within one case (the
call log is duplicate-free), and every later occurrence of the same question
reuses the cached answer (all assignments equal `answer_for` of the stripped
question, so equal questions get equal values). -/
theorem checklist_failsafe_and_memoized (tick : String → Option PyAnswer)
    (ms : List (String × String)) :
    (generate_case_specific_codes tick ms).assignments =
      (ms.filter (fun m => m.2 ≠ "")).map (fun m => (m.1, answer_for tick m.2.trim)) ∧
    (generate_case_specific_codes tick ms).calls.Nodup ∧
    (∀ q, (generate_case_specific_codes tick ms).calls.countP (fun k => k = q) ≤ 1) ∧
    (∀ v q, (v, q) ∈ ms → q ≠ "" → tick q.trim = none →
      (v, false) ∈ (generate_case_specific_codes tick ms).assignments) := by
  unfold generate_case_specific_codes
  obtain ⟨ha, _, _, hd⟩ :=
    generate_fold_spec tick ms ⟨[], [], []⟩ (by simp) (by simp) (by simp)
  rw [ha]
  simp only [List.nil_append]
  refine ⟨trivial, hd, ?_, ?_⟩
  · intro q
    by_cases hq : q ∈ (List.foldl (process_checklist_var tick) ⟨[], [], []⟩ ms).calls
    · exact le_of_eq (countP_eq_one_of_nodup hd hq (by simp)
        (fun x _ hx => by simpa using hx))
    · have h0 : (List.foldl (process_checklist_var tick)
          (⟨[], [], []⟩ : ResolveState) ms).calls.countP (fun k => k = q) = 0 := by
        rw [List.countP_eq_zero]
        intro x hx hpx
        exact hq ((by simpa using hpx : x = q) ▸ hx)
      rw [h0]
      exact Nat.zero_le 1
  · intro v q hm hq htick
    refine List.mem_map.mpr ⟨(v, q), ?_, ?_⟩
    · exact List.mem_filter.mpr ⟨hm, by simpa using hq⟩
    · simp [answer_for, htick]

/-- Witness for `checklist_failsafe_and_memoized`: two variables sharing the
stripped question `q` against an always-failing classifier. -/
theorem checklist_failsafe_and_memoized_witness :
    ("V2", false) ∈ (generate_case_specific_codes (fun _ => none)
      [("V1", " q "), ("V2", "q")]).assignments ∧
    (generate_case_specific_codes (fun _ => none) [("V1", " q "), ("V2", "q")]).calls.Nodup := by
  have h := checklist_failsafe_and_memoized (fun _ => none) [("V1", " q "), ("V2", "q")]
  exact ⟨h.2.2.2 "V2" "q" (by decide) (by decide) rfl, h.2.1⟩

/-- C10: case sampling is deterministic across runs — `get_case_data` is a
pure function of the fixed seed constant, the cases file contents and `num`
(no other entropy source exists in the code), so two invocations over the
same cases list return the identical ordered list; and when `num` is at
least the number of cases the full list is returned in file order. -/
theorem get_case_data_deterministic {α : Type} (sample : Nat → List α → Nat → List α)
    (cases cases2 : List α) (num : Nat) (hsame : cases = cases2) :
    get_case_data sample cases num = get_case_data sample cases2 num ∧
    (num ≥ cases.length → get_case_data sample cases num = cases) := by
  subst hsame
  refine ⟨rfl, fun h => ?_⟩
  unfold get_case_data
  rw [if_pos h]

/-- Witness for `get_case_data_deterministic` with a concrete sampler. -/
theorem get_case_data_deterministic_witness :
    get_case_data (fun _ l k => l.take k) [1, 2, 3] 5 = [1, 2, 3] :=
  (get_case_data_deterministic (fun _ l k => l.take k) [1, 2, 3] [1, 2, 3] 5 rfl).2
    (by decide)


/-! ### Lemmas and claims for the rule-code compiler -/

lemma runStmts_nil (ω : Oracle) (units : List EmittedUnit) (fuel : Nat) (s : RunState) :
    runStmts ω units fuel [] s = .ok s := by
  unfold runStmts
  rfl

lemma runStmts_cons (ω : Oracle) (units : List EmittedUnit) (fuel : Nat)
    (st : PStmt) (rest : List PStmt) (s : RunState) :
    runStmts ω units fuel (st :: rest) s =
      (match runStmt ω units fuel st s with
       | .exc s' => .exc s'
       | .ok s' => runStmts ω units fuel rest s') := by
  simp only [runStmts]

lemma describedChildInvocations_cons (ω : Oracle) (units : List EmittedUnit) (fuel : Nat)
    (c : LawNode) (cs : List LawNode) (s : RunState) :
    describedChildInvocations ω units fuel (c :: cs) s =
      if c.var_name = "" then describedChildInvocations ω units fuel cs s
      else
        match lookupUnit units ("visit_" ++ pyStripStr c.var_name) with
        | none => .exc s
        | some u =>
          match fuel with
          | 0 => .exc s
          | fuel' + 1 =>
            describedChildInvocations ω units fuel cs (runUnit ω units fuel' u s) := rfl

lemma obind_congr {o o' : Outcome} {f g : RunState → Outcome} (ho : o = o')
    (hfg : ∀ s, f s = g s) : obind o f = obind o' g := by
  subst ho
  cases o with
  | exc s => rfl
  | ok s => exact hfg s

lemma runStmts_append (ω : Oracle) (units : List EmittedUnit) (fuel : Nat)
    (xs ys : List PStmt) (s : RunState) :
    runStmts ω units fuel (xs ++ ys) s =
      obind (runStmts ω units fuel xs s) (runStmts ω units fuel ys) := by
  induction xs generalizing s with
  | nil => simp [runStmts, obind]
  | cons st rest ih =>
    rw [List.cons_append]
    unfold runStmts
    cases runStmt ω units fuel st s with
    | exc s' => simp [obind]
    | ok s' => simp [obind, ih]

lemma runStmts_childCalls (ω : Oracle) (units : List EmittedUnit) (fuel : Nat)
    (cs : List LawNode) (s : RunState) :
    runStmts ω units fuel (childCallStmts cs) s =
      describedChildInvocations ω units fuel cs s := by
  induction cs generalizing s with
  | nil => simp [childCallStmts, runStmts, describedChildInvocations]
  | cons c cs ih =>
    by_cases hv : c.var_name = ""
    · have hcc : childCallStmts (c :: cs) = childCallStmts cs := by
        simp [childCallStmts, hv]
      rw [hcc, ih, describedChildInvocations_cons, if_pos hv]
    · have hcc : childCallStmts (c :: cs) =
          PStmt.callUnit ("visit_" ++ pyStripStr c.var_name) :: childCallStmts cs := by
        simp [childCallStmts, hv]
      rw [hcc, describedChildInvocations_cons, if_neg hv]
      unfold runStmts
      cases hl : lookupUnit units ("visit_" ++ pyStripStr c.var_name) with
      | none => simp [runStmt, hl]
      | some u =>
        cases fuel with
        | zero => simp [runStmt, hl]
        | succ fuel' => simp [runStmt, hl, ih]

lemma runStmts_actions (ω : Oracle) (units : List EmittedUnit) (fuel : Nat)
    (ls : List String) (s : RunState) :
    runStmts ω units fuel (ls.map PStmt.actionLine) s = describedActions ω ls s := by
  induction ls generalizing s with
  | nil => simp [runStmts, describedActions]
  | cons a rest ih =>
    simp only [List.map_cons]
    unfold runStmts describedActions
    cases h : ω.runAction a s with
    | none => simp [runStmt, h]
    | some s' => simp [runStmt, h, ih]

lemma runStmts_legal (ω : Oracle) (units : List EmittedUnit) (fuel : Nat)
    (legalExpr v : String) (s : RunState) :
    runStmts ω units fuel
      (if legalExpr ≠ "" then [PStmt.sIfNot legalExpr [PStmt.setLegalFalse v]] else []) s =
      describedLegal ω legalExpr v s := by
  by_cases hl : legalExpr = ""
  · simp [hl, runStmts, describedLegal]
  · rw [if_pos hl, describedLegal, if_pos hl]
    unfold runStmts
    cases he : ω.evalExpr legalExpr s with
    | none => simp [runStmt, he]
    | some b =>
      cases b with
      | true => simp [runStmt, he, runStmts_nil]
      | false => simp [runStmt, he, runStmts, runStmts_nil]

lemma describedChildInvocations_of_no_calls (ω : Oracle) (units : List EmittedUnit)
    (fuel : Nat) {cs : List LawNode} (h : childCallStmts cs = []) (s : RunState) :
    describedChildInvocations ω units fuel cs s = .ok s := by
  induction cs generalizing s with
  | nil => simp [describedChildInvocations]
  | cons c cs ih =>
    have hv : c.var_name = "" := by
      by_contra hv
      simp [childCallStmts, hv] at h
    unfold describedChildInvocations
    rw [if_pos hv]
    have hrest : childCallStmts cs = [] := by
      simpa [childCallStmts, hv] using h
    exact ih hrest s

lemma runUnit_eq (ω : Oracle) (units : List EmittedUnit) (fuel : Nat)
    (f : String) (body : List PStmt) (ev : String) (s : RunState) :
    runUnit ω units fuel ⟨f, body, ev⟩ s =
      handleOutcome ev (runStmts ω units fuel body s) := by
  unfold runUnit handleOutcome
  cases runStmts ω units fuel body s <;> rfl





lemma obind_ok (x : RunState) (f : RunState → Outcome) : obind (.ok x) f = f x := rfl

lemma obind_assoc (o : Outcome) (f g : RunState → Outcome) :
    obind (obind o f) g = obind o (fun s => obind (f s) g) := by
  cases o <;> rfl

lemma runStmts_condition_body (ω : Oracle) (units : List EmittedUnit) (fuel : Nat)
    (n : LawNode) (s : RunState) :
    runStmts ω units fuel
      ([PStmt.setConditionTrue n.var_name] ++
       childCallStmts n.children ++
       (if pyStripStr (n.action_pseudocode.getD "") ≠ "" then
          (nonBlankActionLines (n.action_pseudocode.getD "")).map PStmt.actionLine
        else []) ++
       (if pyStripStr (n.legal_pseudocode.getD "") ≠ "" then
          [PStmt.sIfNot (pyStripStr (n.legal_pseudocode.getD ""))
            [PStmt.setLegalFalse n.var_name]]
        else [])) s =
      obind (describedChildInvocations ω units fuel n.children (setCondTrue n.var_name s))
        (fun s1 =>
          obind (if pyStripStr (n.action_pseudocode.getD "") ≠ "" then
              describedActions ω (nonBlankActionLines (n.action_pseudocode.getD "")) s1
            else .ok s1) (fun s2 =>
            describedLegal ω (pyStripStr (n.legal_pseudocode.getD "")) n.var_name s2)) := by
  rw [runStmts_append, runStmts_append, runStmts_append]
  have h1 : runStmts ω units fuel [PStmt.setConditionTrue n.var_name] s =
      .ok (setCondTrue n.var_name s) := by
    simp [runStmts, runStmt, runStmts_nil]
  rw [h1, obind_ok, obind_assoc, runStmts_childCalls]
  refine obind_congr rfl (fun s1 => ?_)
  have hact : runStmts ω units fuel
      (if pyStripStr (n.action_pseudocode.getD "") ≠ "" then
        (nonBlankActionLines (n.action_pseudocode.getD "")).map PStmt.actionLine
      else []) s1 =
      (if pyStripStr (n.action_pseudocode.getD "") ≠ "" then
        describedActions ω (nonBlankActionLines (n.action_pseudocode.getD "")) s1
      else .ok s1) := by
    by_cases h : pyStripStr (n.action_pseudocode.getD "") = ""
    · simp [h, runStmts_nil]
    · rw [if_pos h, if_pos h, runStmts_actions]
  rw [hact]
  refine obind_congr rfl (fun s2 => ?_)
  rw [runStmts_legal]

/-- The central refinement: interpreting the emitted unit of any accepted
node coincides with the claim-side description. -/
lemma runUnit_emit_described (ω : Oracle) (units : List EmittedUnit) (fuel : Nat)
    (n : LawNode) (u : EmittedUnit) (hemit : emit_node n = .ok u) (s : RunState) :
    runUnit ω units fuel u s = describedRun ω units fuel n s := by
  have hv : ¬ pyStripStr n.var_name = "" := by
    intro h
    rw [emit_node, if_pos h] at hemit
    exact Except.noConfusion hemit
  have hu : u = ⟨"visit_" ++ pyStripStr n.var_name, emit_node_body n, n.var_name⟩ := by
    rw [emit_node, if_neg hv] at hemit
    exact (Except.ok.inj hemit).symm
  subst hu
  rw [runUnit_eq]
  by_cases hc : pyStripStr (n.condition_pseudocode.getD "") = ""
  · have hcn : ¬(pyStripStr (n.condition_pseudocode.getD "") ≠ "") := by simpa using hc
    rw [emit_node_body, describedRun, if_neg hcn, if_neg hcn]
    cases hemp : (childCallStmts n.children).isEmpty with
    | true =>
      have hnil : childCallStmts n.children = [] := by
        simpa [List.isEmpty_iff] using hemp
      rw [describedChildInvocations_of_no_calls ω units fuel hnil]
      simp [runStmts, runStmt, runStmts_nil, handleOutcome]
    | false =>
      rw [if_neg (by simp [hemp]), runStmts_childCalls]
  · rw [emit_node_body, describedRun, if_pos hc, if_pos hc]
    have hstmt : runStmt ω units fuel
        (PStmt.sIf (pyStripStr (n.condition_pseudocode.getD ""))
          ([PStmt.setConditionTrue n.var_name] ++
           childCallStmts n.children ++
           (if pyStripStr (n.action_pseudocode.getD "") ≠ "" then
              (nonBlankActionLines (n.action_pseudocode.getD "")).map PStmt.actionLine
            else []) ++
           (if pyStripStr (n.legal_pseudocode.getD "") ≠ "" then
              [PStmt.sIfNot (pyStripStr (n.legal_pseudocode.getD ""))
                [PStmt.setLegalFalse n.var_name]]
            else []))) s =
        (match ω.evalExpr (pyStripStr (n.condition_pseudocode.getD "")) s with
         | none => Outcome.exc s
         | some true => runStmts ω units fuel
             ([PStmt.setConditionTrue n.var_name] ++
              childCallStmts n.children ++
              (if pyStripStr (n.action_pseudocode.getD "") ≠ "" then
                 (nonBlankActionLines (n.action_pseudocode.getD "")).map PStmt.actionLine
               else []) ++
              (if pyStripStr (n.legal_pseudocode.getD "") ≠ "" then
                 [PStmt.sIfNot (pyStripStr (n.legal_pseudocode.getD ""))
                   [PStmt.setLegalFalse n.var_name]]
               else [])) s
         | some false => Outcome.ok s) := by
      unfold runStmt
      rfl
    rw [runStmts_cons, hstmt]
    cases he : ω.evalExpr (pyStripStr (n.condition_pseudocode.getD "")) s with
    | none => simp [handleOutcome]
    | some b =>
      cases b with
      | false => simp [runStmts_nil, handleOutcome]
      | true =>
        rw [runStmts_condition_body]
        cases hres : obind (describedChildInvocations ω units fuel n.children
            (setCondTrue n.var_name s)) (fun s1 =>
          obind (if pyStripStr (n.action_pseudocode.getD "") ≠ "" then
              describedActions ω (nonBlankActionLines (n.action_pseudocode.getD "")) s1
            else .ok s1) (fun s2 =>
            describedLegal ω (pyStripStr (n.legal_pseudocode.getD "")) n.var_name s2)) with
        | exc s2 => simp [handleOutcome]
        | ok s2 => simp [runStmts_nil, handleOutcome]



/-- C1: for every law node the compiler accepts, the emitted unit behaves
exactly as described: a non-empty `condition_pseudocode` is evaluated and only
when true the unit sets the node's `condition = true`, invokes the unit of
every child whose node has a `var_name` (children lacking one are skipped),
executes each non-blank `action_pseudocode` line, and finally sets
`legal = false` when a non-empty `legal_pseudocode` evaluates false; with an
empty `condition_pseudocode` the unit still invokes all `var_name`-bearing
children unconditionally.  Formally: the interpretation of the emitted unit
equals `describedRun`, the independent transcription of that description,
for every oracle, unit environment, fuel and state. -/
theorem compiled_unit_semantics (ω : Oracle) (units : List EmittedUnit) (fuel : Nat)
    (n : LawNode) (u : EmittedUnit) (hemit : emit_node n = .ok u) (s : RunState) :
    runUnit ω units fuel u s = describedRun ω units fuel n s :=
  runUnit_emit_described ω units fuel n u hemit s

/-- Witness for `compiled_unit_semantics` on a concrete one-node unit. -/
theorem compiled_unit_semantics_witness :
    runUnit ⟨fun _ _ => some true, fun _ s => some s⟩ [] 1
        ⟨"visit_" ++ pyStripStr "V", emit_node_body (LawNode.mk "V" (some "COND") none none []), "V"⟩
        ⟨fun _ => false, fun _ => true, []⟩ =
      describedRun ⟨fun _ _ => some true, fun _ s => some s⟩ [] 1
        (LawNode.mk "V" (some "COND") none none []) ⟨fun _ => false, fun _ => true, []⟩ :=
  compiled_unit_semantics ⟨fun _ _ => some true, fun _ s => some s⟩ [] 1
    (LawNode.mk "V" (some "COND") none none [])
    ⟨"visit_" ++ pyStripStr "V", emit_node_body (LawNode.mk "V" (some "COND") none none []), "V"⟩
    (by rw [emit_node, if_neg (by decide)]; rfl) ⟨fun _ => false, fun _ => true, []⟩

/-- C2: exceptions in a node's own logic are caught inside its own emitted
unit and never propagate: (a) a `visit_` call of a defined unit always
returns normally to its caller; (b) when evaluating this node's condition
raises (e.g. an undefined variable), the unit's result is exactly the input
state with the error line for its `var_name` appended to the error log; and
(c) a sequence of two sibling unit calls always executes both, the second
running from the first's resulting state — so a broken rule cannot abort
sibling or ancestor evaluation and the siblings' effects still reach the
final report. -/
theorem compiled_unit_error_isolation (ω : Oracle) (units : List EmittedUnit) (fuel : Nat)
    (n : LawNode) (u : EmittedUnit) (hemit : emit_node n = .ok u) (s : RunState) :
    (∀ f u', lookupUnit units f = some u' →
      runStmt ω units (fuel + 1) (PStmt.callUnit f) s = .ok (runUnit ω units fuel u' s)) ∧
    (pyStripStr (n.condition_pseudocode.getD "") ≠ "" →
      ω.evalExpr (pyStripStr (n.condition_pseudocode.getD "")) s = none →
      runUnit ω units fuel u s = record_error n.var_name s ∧
      (runUnit ω units fuel u s).errors =
        s.errors ++ [n.var_name ++ "에서 시행 오류가 발생했다"]) ∧
    (∀ fa fb ua ub, lookupUnit units fa = some ua → lookupUnit units fb = some ub →
      runStmts ω units (fuel + 1) [PStmt.callUnit fa, PStmt.callUnit fb] s =
        .ok (runUnit ω units fuel ub (runUnit ω units fuel ua s))) := by
  refine ⟨?_, ?_, ?_⟩
  · intro f u' hl
    simp [runStmt, hl]
  · intro hcond hnone
    have heq : runUnit ω units fuel u s = record_error n.var_name s := by
      rw [runUnit_emit_described ω units fuel n u hemit, describedRun, if_pos hcond, hnone]
    refine ⟨heq, ?_⟩
    rw [heq]
    simp [record_error]
  · intro fa fb ua ub ha hb
    have hca : runStmt ω units (fuel + 1) (PStmt.callUnit fa) s =
        .ok (runUnit ω units fuel ua s) := by
      simp [runStmt, ha]
    have hcb : runStmt ω units (fuel + 1) (PStmt.callUnit fb)
        (runUnit ω units fuel ua s) = .ok (runUnit ω units fuel ub
          (runUnit ω units fuel ua s)) := by
      simp [runStmt, hb]
    rw [runStmts_cons, hca]
    show runStmts ω units (fuel + 1) [PStmt.callUnit fb] (runUnit ω units fuel ua s) = _
    rw [runStmts_cons, hcb]
    simp [runStmts_nil]

/-- Witness for `compiled_unit_error_isolation`: a node whose condition
references an undefined variable records its error and returns normally. -/
theorem compiled_unit_error_isolation_witness :
    runUnit ⟨fun _ _ => none, fun _ s => some s⟩ [] 1
        ⟨"visit_" ++ pyStripStr "B", emit_node_body (LawNode.mk "B" (some "undefined_var") none none []), "B"⟩
        ⟨fun _ => false, fun _ => true, []⟩ =
      record_error "B" ⟨fun _ => false, fun _ => true, []⟩ := by
  have h := compiled_unit_error_isolation ⟨fun _ _ => none, fun _ s => some s⟩ [] 1
    (LawNode.mk "B" (some "undefined_var") none none [])
    ⟨"visit_" ++ pyStripStr "B", emit_node_body (LawNode.mk "B" (some "undefined_var") none none []), "B"⟩
    (by rw [emit_node, if_neg (by decide)]; rfl) ⟨fun _ => false, fun _ => true, []⟩
  exact (h.2.1 (by decide) rfl).1



-- C8 supporting lemmas and theorem

lemma idIndex_spec {entries : List LawEntry} {i : String} {e : LawEntry}
    (h : idIndex entries i = some e) : e ∈ entries ∧ e.id = i := by
  unfold idIndex at h
  refine ⟨List.mem_reverse.mp (List.mem_of_find?_eq_some h), ?_⟩
  have := List.find?_some h
  simpa using this

lemma idIndex_of_mem {entries : List LawEntry} {i : String}
    (h : i ∈ entries.map (fun e => e.id)) : ∃ e, idIndex entries i = some e := by
  obtain ⟨x, hx, hxi⟩ := List.mem_map.mp h
  unfold idIndex
  cases hf : entries.reverse.find? (fun e => e.id = i) with
  | some e => exact ⟨e, rfl⟩
  | none =>
    exfalso
    have := List.find?_eq_none.mp hf x (List.mem_reverse.mpr hx)
    simp [hxi] at this

lemma idIndex_unique {entries : List LawEntry} {i : String} {e x : LawEntry}
    (hnd : (entries.map (fun e => e.id)).Nodup)
    (h : idIndex entries i = some e) (hx : x ∈ entries) (hxi : x.id = i) : x = e := by
  obtain ⟨he, hei⟩ := idIndex_spec h
  exact List.inj_on_of_nodup_map hnd hx he (by rw [hxi, hei])

lemma mem_childrenIndex {entries : List LawEntry} {p c : String}
    (h : c ∈ childrenIndex entries p) :
    ∃ e ∈ entries, e.id = c ∧ e.parent = some p ∧ p ≠ "" := by
  unfold childrenIndex at h
  obtain ⟨e, he, hfe⟩ := List.mem_filterMap.mp h
  split at hfe
  · rename_i hq
    obtain rfl : e.id = c := by simpa using hfe
    exact ⟨e, he, rfl, hq.1, hq.2⟩
  · simp at hfe

lemma childrenIndex_of_entry {entries : List LawEntry} {e : LawEntry} {p : String}
    (he : e ∈ entries) (hp : e.parent = some p) (hne : p ≠ "") :
    e.id ∈ childrenIndex entries p := by
  unfold childrenIndex
  refine List.mem_filterMap.mpr ⟨e, he, ?_⟩
  rw [if_pos ⟨hp, hne⟩]


lemma childrenIndex_cons (e : LawEntry) (es : List LawEntry) (p : String) :
    childrenIndex (e :: es) p =
      if e.parent = some p ∧ p ≠ "" then e.id :: childrenIndex es p else childrenIndex es p := by
  unfold childrenIndex
  rw [List.filterMap_cons]
  by_cases h : e.parent = some p ∧ p ≠ ""
  · rw [if_pos h, if_pos h]
  · rw [if_neg h, if_neg h]

lemma childrenIndex_append (l1 l2 : List LawEntry) (p : String) :
    childrenIndex (l1 ++ l2) p = childrenIndex l1 p ++ childrenIndex l2 p := by
  unfold childrenIndex
  rw [List.filterMap_append]

lemma childrenIndex_nodup :
    ∀ {entries : List LawEntry}, (entries.map (fun e => e.id)).Nodup →
      ∀ p, (childrenIndex entries p).Nodup := by
  intro entries
  induction entries with
  | nil => intro _ p; simp [childrenIndex]
  | cons e es ih =>
    intro hnd p
    rw [List.map_cons, List.nodup_cons] at hnd
    rw [childrenIndex_cons]
    by_cases h : e.parent = some p ∧ p ≠ ""
    · rw [if_pos h]
      refine List.nodup_cons.mpr ⟨?_, ih hnd.2 p⟩
      intro hmem
      obtain ⟨e2, he2, he2id, _, _⟩ := mem_childrenIndex hmem
      exact hnd.1 (List.mem_map.mpr ⟨e2, he2, he2id⟩)
    · rw [if_neg h]
      exact ih hnd.2 p

lemma collectChildList_cons (collect : String → Option (List LawEntry)) (c : String)
    (cs : List String) :
    collectChildList collect (c :: cs) =
      match collect c with
      | none => none
      | some l1 =>
        match collectChildList collect cs with
        | none => none
        | some l2 => some (l1 ++ l2) := rfl

lemma collectChildList_cons_elim {collect : String → Option (List LawEntry)} {c : String}
    {cs : List String} {L : List LawEntry}
    (h : collectChildList collect (c :: cs) = some L) :
    ∃ lc L2, collect c = some lc ∧ collectChildList collect cs = some L2 ∧ L = lc ++ L2 := by
  rw [collectChildList_cons] at h
  cases hc : collect c with
  | none => rw [hc] at h; exact Option.noConfusion h
  | some lc =>
    rw [hc] at h
    cases hcs : collectChildList collect cs with
    | none => rw [hcs] at h; exact Option.noConfusion h
    | some L2 =>
      rw [hcs] at h
      refine ⟨lc, L2, rfl, rfl, ?_⟩
      injection h with h2
      exact h2.symm

lemma mem_collectChildList {collect : String → Option (List LawEntry)} {cs : List String}
    {L : List LawEntry} (h : collectChildList collect cs = some L) (x : LawEntry) :
    x ∈ L ↔ ∃ c ∈ cs, ∃ lc, collect c = some lc ∧ x ∈ lc := by
  induction cs generalizing L with
  | nil =>
    injection h with h2
    subst h2
    simp
  | cons c cs ih =>
    obtain ⟨lc, L2, hc, hcs, rfl⟩ := collectChildList_cons_elim h
    constructor
    · intro hx
      rcases List.mem_append.mp hx with hx | hx
      · exact ⟨c, List.mem_cons_self _ _, lc, hc, hx⟩
      · obtain ⟨d, hd, ld, hld, hxl⟩ := (ih hcs).mp hx
        exact ⟨d, List.mem_cons_of_mem _ hd, ld, hld, hxl⟩
    · rintro ⟨d, hd, ld, hld, hxl⟩
      rcases List.mem_cons.mp hd with rfl | hd
      · rw [hc] at hld
        injection hld with h2
        subst h2
        exact List.mem_append_left _ hxl
      · exact List.mem_append_right _ ((ih hcs).mpr ⟨d, hd, ld, hld, hxl⟩)

lemma collectChildList_append_elim {collect : String → Option (List LawEntry)}
    {s1 s2 : List String} {L : List LawEntry}
    (h : collectChildList collect (s1 ++ s2) = some L) :
    ∃ L1 L2, collectChildList collect s1 = some L1 ∧ collectChildList collect s2 = some L2 ∧
      L = L1 ++ L2 := by
  induction s1 generalizing L with
  | nil => exact ⟨[], L, rfl, h, rfl⟩
  | cons c cs ih =>
    rw [List.cons_append] at h
    obtain ⟨lc, L2, hc, hcs, rfl⟩ := collectChildList_cons_elim h
    obtain ⟨L3, L4, h3, h4, rfl⟩ := ih hcs
    refine ⟨lc ++ L3, L4, ?_, h4, by rw [List.append_assoc]⟩
    rw [collectChildList_cons, hc, h3]

lemma collectChildList_succeeds {collect : String → Option (List LawEntry)} {cs : List String}
    (h : ∀ c ∈ cs, ∃ lc, collect c = some lc) :
    ∃ L, collectChildList collect cs = some L := by
  induction cs with
  | nil => exact ⟨[], rfl⟩
  | cons c cs ih =>
    obtain ⟨lc, hc⟩ := h c (List.mem_cons_self _ _)
    obtain ⟨L, hL⟩ := ih (fun d hd => h d (List.mem_cons_of_mem _ hd))
    exact ⟨lc ++ L, by rw [collectChildList_cons, hc, hL]⟩

lemma collectChildList_elem_succeeds {collect : String → Option (List LawEntry)}
    {cs : List String} {L : List LawEntry}
    (h : collectChildList collect cs = some L) {c : String} (hc : c ∈ cs) :
    ∃ lc, collect c = some lc := by
  induction cs generalizing L with
  | nil => cases hc
  | cons d ds ih =>
    obtain ⟨lc, L2, hd, hds, rfl⟩ := collectChildList_cons_elim h
    rcases List.mem_cons.mp hc with rfl | hc2
    · exact ⟨lc, hd⟩
    · exact ih hds hc2

lemma collectChildList_split {collect : String → Option (List LawEntry)} {cs : List String}
    {L : List LawEntry} (h : collectChildList collect cs = some L) {c : String} (hc : c ∈ cs)
    {lc : List LawEntry} (hlc : collect c = some lc) :
    ∃ A B, L = A ++ (lc ++ B) := by
  induction cs generalizing L with
  | nil => cases hc
  | cons d ds ih =>
    obtain ⟨ld, L2, hd, hds, rfl⟩ := collectChildList_cons_elim h
    rcases List.mem_cons.mp hc with rfl | hc2
    · rw [hd] at hlc
      injection hlc with h2
      subst h2
      exact ⟨[], L2, rfl⟩
    · obtain ⟨A, B, rfl⟩ := ih hds hc2
      exact ⟨ld ++ A, B, by rw [List.append_assoc]⟩

lemma collectSubtree_succ_elim {entries : List LawEntry} {fuel : Nat} {i : String}
    {l : List LawEntry} (h : collectSubtree entries (fuel + 1) i = some l) :
    ∃ e L, idIndex entries i = some e ∧
      collectChildList (collectSubtree entries fuel) (childrenIndex entries i) = some L ∧
      l = e :: L := by
  unfold collectSubtree at h
  cases he : idIndex entries i with
  | none => rw [he] at h; exact Option.noConfusion h
  | some e =>
    rw [he] at h
    cases hL : collectChildList (collectSubtree entries fuel) (childrenIndex entries i) with
    | none => rw [hL] at h; exact Option.noConfusion h
    | some L =>
      rw [hL] at h
      refine ⟨e, L, rfl, rfl, ?_⟩
      injection h with h2
      exact h2.symm

lemma reaches_trans {entries : List LawEntry} {a b j : String}
    (h1 : Reaches entries b j) (h2 : Reaches entries a b) : Reaches entries a j := by
  induction h1 with
  | refl => exact h2
  | step he hp hne hr ih => exact Reaches.step he hp hne ih

lemma rank_le_of_reaches {entries : List LawEntry} {rank : String → Nat}
    (hrank : ∀ e ∈ entries, ∀ p, e.parent = some p → p ≠ "" → rank e.id < rank p)
    {root j : String} (h : Reaches entries root j) : rank j ≤ rank root := by
  induction h with
  | refl => exact le_refl _
  | step he hp hne hr ih => exact le_of_lt (lt_of_lt_of_le (hrank _ he _ hp hne) ih)

lemma reaches_inv {entries : List LawEntry} {b j : String} (h : Reaches entries b j) :
    j = b ∨ ∃ e ∈ entries, ∃ p, e.id = j ∧ e.parent = some p ∧ p ≠ "" ∧ Reaches entries b p := by
  cases h with
  | refl => exact Or.inl rfl
  | step he hp hne hr => exact Or.inr ⟨_, he, _, rfl, hp, hne, hr⟩

lemma reaches_src {entries : List LawEntry} {root j : String} (h : Reaches entries root j) :
    j = root ∨ ∃ e ∈ entries, e.id = j := by
  cases h with
  | refl => exact Or.inl rfl
  | step he hp hne hr => exact Or.inr ⟨_, he, rfl⟩

lemma chain_unique {entries : List LawEntry}
    (hnd : (entries.map (fun e => e.id)).Nodup) {a b j : String}
    (h1 : Reaches entries a j) :
    Reaches entries b j → Reaches entries a b ∨ Reaches entries b a := by
  induction h1 with
  | refl => intro h2; exact Or.inr h2
  | @step e p he hp hne hr ih =>
    intro h2
    rcases reaches_inv h2 with hb | ⟨e2, he2, p2, hid, hp2, hne2, hr2⟩
    · exact Or.inl (hb ▸ Reaches.step he hp hne hr)
    · have hee : e2 = e := List.inj_on_of_nodup_map hnd he2 he hid
      subst hee
      rw [hp] at hp2
      obtain rfl : p = p2 := Option.some.inj hp2
      exact ih hr2

lemma reaches_through_parent {entries : List LawEntry}
    (hnd : (entries.map (fun e => e.id)).Nodup) {c j p : String} {e1 : LawEntry}
    (he1 : e1 ∈ entries) (hid : e1.id = j) (hp : e1.parent = some p)
    (h : Reaches entries c j) : c = j ∨ Reaches entries c p := by
  rcases reaches_inv h with rfl | ⟨e, he, q, hqid, hqp, hqne, hr⟩
  · exact Or.inl rfl
  · have hee : e = e1 := List.inj_on_of_nodup_map hnd he he1 (hqid.trans hid.symm)
    subst hee
    rw [hp] at hqp
    obtain rfl : p = q := Option.some.inj hqp
    exact Or.inr hr

lemma collect_sound {entries : List LawEntry} :
    ∀ {fuel : Nat} {i : String} {l : List LawEntry},
      collectSubtree entries fuel i = some l →
      ∀ x ∈ l, x ∈ entries ∧ Reaches entries i x.id := by
  intro fuel
  induction fuel with
  | zero => intro i l h; exact Option.noConfusion h
  | succ fuel ih =>
    intro i l h x hx
    obtain ⟨e, L, he, hL, rfl⟩ := collectSubtree_succ_elim h
    rcases List.mem_cons.mp hx with rfl | hxL
    · obtain ⟨hem, hid⟩ := idIndex_spec he
      exact ⟨hem, by rw [hid]; exact Reaches.refl⟩
    · obtain ⟨c, hc, lc, hlc, hxlc⟩ := (mem_collectChildList hL x).mp hxL
      obtain ⟨ec, hecm, hecid, hecp, hcne⟩ := mem_childrenIndex hc
      obtain ⟨hxm, hxr⟩ := ih hlc x hxlc
      refine ⟨hxm, reaches_trans hxr ?_⟩
      rw [← hecid]
      exact Reaches.step hecm hecp hcne Reaches.refl

lemma collectSubtree_head {entries : List LawEntry}
    (hnd : (entries.map (fun e => e.id)).Nodup) {fuel : Nat} {e : LawEntry}
    (he : e ∈ entries) {lc : List LawEntry}
    (h : collectSubtree entries fuel e.id = some lc) : e ∈ lc := by
  cases fuel with
  | zero => exact Option.noConfusion h
  | succ fuel =>
    obtain ⟨e2, L, he2, hL, rfl⟩ := collectSubtree_succ_elim h
    obtain ⟨he2m, he2id⟩ := idIndex_spec he2
    have hee : e = e2 := List.inj_on_of_nodup_map hnd he he2m (by rw [he2id])
    rw [hee]
    exact List.mem_cons_self _ _

lemma collect_closed {entries : List LawEntry}
    (hnd : (entries.map (fun e => e.id)).Nodup) :
    ∀ {fuel : Nat} {i : String} {l : List LawEntry},
      collectSubtree entries fuel i = some l →
      ∀ ep ∈ l, ∀ e ∈ entries, e.parent = some ep.id → ep.id ≠ "" → e ∈ l := by
  intro fuel
  induction fuel with
  | zero => intro i l h; exact Option.noConfusion h
  | succ fuel ih =>
    intro i l hcol ep hep e he hpar hpne
    obtain ⟨ei, L, hei, hL, rfl⟩ := collectSubtree_succ_elim hcol
    rcases List.mem_cons.mp hep with rfl | hepL
    · obtain ⟨heim, hiid⟩ := idIndex_spec hei
      have hc : e.id ∈ childrenIndex entries i :=
        childrenIndex_of_entry he (by rw [hpar, hiid]) (by rw [← hiid]; exact hpne)
      obtain ⟨lc, hlc⟩ := collectChildList_elem_succeeds hL hc
      have hemem : e ∈ lc := collectSubtree_head hnd he hlc
      exact List.mem_cons_of_mem _
        ((mem_collectChildList hL e).mpr ⟨e.id, hc, lc, hlc, hemem⟩)
    · obtain ⟨c, hc, lc, hlc, heplc⟩ := (mem_collectChildList hL ep).mp hepL
      have hmem : e ∈ lc := ih hlc ep heplc e he hpar hpne
      exact List.mem_cons_of_mem _
        ((mem_collectChildList hL e).mpr ⟨c, hc, lc, hlc, hmem⟩)

lemma collect_succeeds {entries : List LawEntry} {rank : String → Nat}
    (hrank : ∀ e ∈ entries, ∀ p, e.parent = some p → p ≠ "" → rank e.id < rank p) :
    ∀ {fuel : Nat} {i : String}, (∃ e, idIndex entries i = some e) → rank i < fuel →
      ∃ l, collectSubtree entries fuel i = some l := by
  intro fuel
  induction fuel with
  | zero => intro i _ h; exact absurd h (Nat.not_lt_zero _)
  | succ fuel ih =>
    intro i hpres hflt
    obtain ⟨e, he⟩ := hpres
    have hchild : ∀ c ∈ childrenIndex entries i,
        ∃ lc, collectSubtree entries fuel c = some lc := by
      intro c hc
      obtain ⟨ec, hecm, hecid, hecp, hcne⟩ := mem_childrenIndex hc
      have hrc : rank c < rank i := by
        rw [← hecid]
        exact hrank ec hecm i hecp hcne
      have hpres2 : ∃ e2, idIndex entries c = some e2 :=
        idIndex_of_mem (List.mem_map.mpr ⟨ec, hecm, hecid⟩)
      exact ih hpres2 (lt_of_lt_of_le hrc (Nat.lt_succ_iff.mp hflt))
    obtain ⟨L, hL⟩ := collectChildList_succeeds hchild
    refine ⟨e :: L, ?_⟩
    unfold collectSubtree
    rw [he, hL]

lemma collect_complete {entries : List LawEntry}
    (hnd : (entries.map (fun e => e.id)).Nodup)
    {fuel : Nat} {i : String} {l : List LawEntry}
    (hcol : collectSubtree entries fuel i = some l)
    {j : String} (hr : Reaches entries i j) :
    ∀ x ∈ entries, x.id = j → x ∈ l := by
  induction hr with
  | refl =>
    intro x hx hxi
    cases fuel with
    | zero => exact Option.noConfusion hcol
    | succ fuel =>
      obtain ⟨e, L, he, hL, rfl⟩ := collectSubtree_succ_elim hcol
      rw [idIndex_unique hnd he hx hxi]
      exact List.mem_cons_self _ _
  | @step e2 p2 he2 hp2 hne2 hr2 ih =>
    intro x hx hxid
    have hxe : x = e2 := List.inj_on_of_nodup_map hnd hx he2 hxid
    rcases reaches_src hr2 with hpi | ⟨ep, hepm, hepid⟩
    · cases fuel with
      | zero => exact Option.noConfusion hcol
      | succ fuel =>
        obtain ⟨e0, L, he0, hL, hleq⟩ := collectSubtree_succ_elim hcol
        obtain ⟨he0m, he0id⟩ := idIndex_spec he0
        have hmem0 : e0 ∈ l := by rw [hleq]; exact List.mem_cons_self _ _
        refine collect_closed hnd hcol e0 hmem0 x hx ?_ ?_
        · rw [hxe, hp2, he0id, hpi]
        · rw [he0id, ← hpi]; exact hne2
    · have hepl : ep ∈ l := ih ep hepm hepid
      refine collect_closed hnd hcol ep hepl x hx ?_ ?_
      · rw [hxe, hp2, hepid]
      · rw [hepid]; exact hne2

lemma child_reaches_child {entries : List LawEntry} {rank : String → Nat}
    (hnd : (entries.map (fun e => e.id)).Nodup)
    (hrank : ∀ e ∈ entries, ∀ p, e.parent = some p → p ≠ "" → rank e.id < rank p)
    {i c c2 : String} (hc : c ∈ childrenIndex entries i) (hc2 : c2 ∈ childrenIndex entries i)
    (h : Reaches entries c c2) : c = c2 := by
  rcases reaches_inv h with rfl | ⟨e, he, p, hid, hp, hpne, hr⟩
  · rfl
  · obtain ⟨ec2, hec2m, hec2id, hec2p, hine⟩ := mem_childrenIndex hc2
    have hee : e = ec2 := List.inj_on_of_nodup_map hnd he hec2m (hid.trans hec2id.symm)
    subst hee
    rw [hec2p] at hp
    obtain rfl : i = p := Option.some.inj hp
    obtain ⟨ec, hecm, hecid, hecp, _⟩ := mem_childrenIndex hc
    have h1 : rank i ≤ rank c := rank_le_of_reaches hrank hr
    have h2 : rank c < rank i := by
      rw [← hecid]
      exact hrank ec hecm i hecp hine
    exact absurd h1 (not_le.mpr h2)

lemma subtree_disjoint {entries : List LawEntry} {rank : String → Nat}
    (hnd : (entries.map (fun e => e.id)).Nodup)
    (hrank : ∀ e ∈ entries, ∀ p, e.parent = some p → p ≠ "" → rank e.id < rank p)
    {i c c2 j : String} (hc : c ∈ childrenIndex entries i) (hc2 : c2 ∈ childrenIndex entries i)
    (hne : c ≠ c2) (h1 : Reaches entries c j) (h2 : Reaches entries c2 j) : False := by
  rcases chain_unique hnd h1 h2 with h | h
  · exact hne (child_reaches_child hnd hrank hc hc2 h)
  · exact hne (child_reaches_child hnd hrank hc2 hc h).symm

lemma child_not_reaches_root {entries : List LawEntry} {rank : String → Nat}
    (hrank : ∀ e ∈ entries, ∀ p, e.parent = some p → p ≠ "" → rank e.id < rank p)
    {i c : String} (hc : c ∈ childrenIndex entries i)
    (h : Reaches entries c i) : False := by
  obtain ⟨ec, hecm, hecid, hecp, hine⟩ := mem_childrenIndex hc
  have h1 : rank i ≤ rank c := rank_le_of_reaches hrank h
  have h2 : rank c < rank i := by
    rw [← hecid]
    exact hrank ec hecm i hecp hine
  exact absurd h1 (not_le.mpr h2)

lemma collectChildList_nodup {entries : List LawEntry} {rank : String → Nat}
    (hnd : (entries.map (fun e => e.id)).Nodup)
    (hrank : ∀ e ∈ entries, ∀ p, e.parent = some p → p ≠ "" → rank e.id < rank p)
    {fuel : Nat} {i : String}
    (hih : ∀ {c : String} {lc : List LawEntry}, collectSubtree entries fuel c = some lc →
      (lc.map (fun e => e.id)).Nodup) :
    ∀ {cs : List String}, cs.Nodup → (∀ c ∈ cs, c ∈ childrenIndex entries i) →
      ∀ {L : List LawEntry}, collectChildList (collectSubtree entries fuel) cs = some L →
      (L.map (fun e => e.id)).Nodup := by
  intro cs
  induction cs with
  | nil =>
    intro _ _ L h
    injection h with h2
    subst h2
    simp
  | cons c cs ih =>
    intro hcnd hmem L h
    obtain ⟨lc, L2, hc, hcs, rfl⟩ := collectChildList_cons_elim h
    rw [List.map_append, List.nodup_append]
    refine ⟨hih hc, ih (List.nodup_cons.mp hcnd).2
      (fun d hd => hmem d (List.mem_cons_of_mem _ hd)) hcs, ?_⟩
    intro a ha ha2
    obtain ⟨x, hxlc, hxid⟩ := List.mem_map.mp ha
    obtain ⟨y, hyL2, hyid⟩ := List.mem_map.mp ha2
    obtain ⟨c2, hc2, lc2, hlc2, hylc2⟩ := (mem_collectChildList hcs y).mp hyL2
    have hrx : Reaches entries c x.id := (collect_sound hc x hxlc).2
    have hry : Reaches entries c2 y.id := (collect_sound hlc2 y hylc2).2
    have hne : c ≠ c2 := by
      intro hcc
      exact (List.nodup_cons.mp hcnd).1 (hcc ▸ hc2)
    refine subtree_disjoint hnd hrank (hmem c (List.mem_cons_self _ _))
      (hmem c2 (List.mem_cons_of_mem _ hc2)) hne hrx ?_
    rw [hxid, ← hyid]
    exact hry

lemma collect_nodup {entries : List LawEntry} {rank : String → Nat}
    (hnd : (entries.map (fun e => e.id)).Nodup)
    (hrank : ∀ e ∈ entries, ∀ p, e.parent = some p → p ≠ "" → rank e.id < rank p) :
    ∀ {fuel : Nat} {i : String} {l : List LawEntry},
      collectSubtree entries fuel i = some l → (l.map (fun e => e.id)).Nodup := by
  intro fuel
  induction fuel with
  | zero => intro i l h; exact Option.noConfusion h
  | succ fuel ih =>
    intro i l h
    obtain ⟨e, L, he, hL, rfl⟩ := collectSubtree_succ_elim h
    rw [List.map_cons, List.nodup_cons]
    obtain ⟨hem, hid⟩ := idIndex_spec he
    constructor
    · intro hmem
      obtain ⟨x, hxL, hxid⟩ := List.mem_map.mp hmem
      obtain ⟨c, hc, lc, hlc, hxlc⟩ := (mem_collectChildList hL x).mp hxL
      refine child_not_reaches_root hrank hc ?_
      have hrx : Reaches entries c x.id := (collect_sound hlc x hxlc).2
      rw [hxid, hid] at hrx
      exact hrx
    · exact collectChildList_nodup hnd hrank (fun hc => ih hc)
        (childrenIndex_nodup hnd i) (fun d hd => hd) hL

lemma before_ne {a b : LawEntry} {l : List LawEntry} (hnd : l.Nodup) (h : Before a b l) :
    a ≠ b := by
  obtain ⟨l1, l2, rfl, h1, h2⟩ := h
  intro hab
  subst hab
  exact List.disjoint_of_nodup_append hnd h1 h2

lemma child_id_parent_root {entries : List LawEntry}
    (hnd : (entries.map (fun e => e.id)).Nodup) {i c p : String} {e1 : LawEntry}
    (hc : c ∈ childrenIndex entries i) (hcid : c = e1.id) (he1 : e1 ∈ entries)
    (hp1 : e1.parent = some p) : p = i := by
  obtain ⟨ec, hecm, hecid, hecp, _⟩ := mem_childrenIndex hc
  have hee : ec = e1 := List.inj_on_of_nodup_map hnd hecm he1 (hecid.trans hcid)
  rw [hee, hp1] at hecp
  exact Option.some.inj hecp

lemma collect_parent_before {entries : List LawEntry} {rank : String → Nat}
    (hnd : (entries.map (fun e => e.id)).Nodup)
    (hrank : ∀ e ∈ entries, ∀ p, e.parent = some p → p ≠ "" → rank e.id < rank p) :
    ∀ {fuel : Nat} {i : String} {l : List LawEntry},
      collectSubtree entries fuel i = some l →
      ∀ pe ∈ l, ∀ ce ∈ l, ce.parent = some pe.id → pe.id ≠ "" → Before pe ce l := by
  intro fuel
  induction fuel with
  | zero => intro i l h; exact Option.noConfusion h
  | succ fuel ih =>
    intro i l hcol pe hpe ce hce hcp hpne
    obtain ⟨e, L, he, hL, rfl⟩ := collectSubtree_succ_elim hcol
    obtain ⟨hem, hid⟩ := idIndex_spec he
    have hceL : ce ∈ L := by
      rcases List.mem_cons.mp hce with heq | hceL2
      · exfalso
        have hcem : ce ∈ entries := by rw [heq]; exact hem
        have hlt := hrank ce hcem pe.id hcp hpne
        rcases List.mem_cons.mp hpe with heq2 | hpeL
        · have hceid : ce.id = pe.id := by rw [heq, heq2]
          rw [hceid] at hlt
          exact absurd hlt (lt_irrefl _)
        · obtain ⟨c, hc, lc, hlc, hpelc⟩ := (mem_collectChildList hL pe).mp hpeL
          have hr1 : rank pe.id ≤ rank c :=
            rank_le_of_reaches hrank (collect_sound hlc pe hpelc).2
          obtain ⟨ec, hecm, hecid, hecp, hine⟩ := mem_childrenIndex hc
          have hr2 : rank c < rank i := by
            rw [← hecid]
            exact hrank ec hecm i hecp hine
          have hr3 : rank i < rank pe.id := by
            rw [heq, hid] at hlt
            exact hlt
          omega
      · exact hceL2
    rcases List.mem_cons.mp hpe with rfl | hpeL
    · exact ⟨[pe], L, rfl, List.mem_cons_self _ _, hceL⟩
    · obtain ⟨c, hc, lc, hlc, hpelc⟩ := (mem_collectChildList hL pe).mp hpeL
      obtain ⟨c2, hc2, lc2, hlc2, hcelc2⟩ := (mem_collectChildList hL ce).mp hceL
      by_cases hcc : c = c2
      · subst hcc
        rw [hlc] at hlc2
        injection hlc2 with hleq
        subst hleq
        have hbef : Before pe ce lc := ih hlc pe hpelc ce hcelc2 hcp hpne
        obtain ⟨A, B, hAB⟩ := collectChildList_split hL hc hlc
        obtain ⟨m1, m2, hm, hpm1, hcm2⟩ := hbef
        refine ⟨(e :: A) ++ m1, m2 ++ B, ?_, List.mem_append_right _ hpm1,
          List.mem_append_left _ hcm2⟩
        rw [hAB, hm]
        simp
      · exfalso
        have hcem : ce ∈ entries := (collect_sound hlc2 ce hcelc2).1
        have hr1 : Reaches entries c ce.id :=
          Reaches.step hcem hcp hpne (collect_sound hlc pe hpelc).2
        exact subtree_disjoint hnd hrank hc hc2 hcc hr1 (collect_sound hlc2 ce hcelc2).2

lemma collect_sibling_order {entries : List LawEntry} {rank : String → Nat}
    (hnd : (entries.map (fun e => e.id)).Nodup)
    (hrank : ∀ e ∈ entries, ∀ p, e.parent = some p → p ≠ "" → rank e.id < rank p) :
    ∀ {fuel : Nat} {i : String} {l : List LawEntry},
      collectSubtree entries fuel i = some l →
      ∀ p, p ≠ "" → ∀ e1 e2 : LawEntry, e1.parent = some p → e2.parent = some p →
        e1 ∈ l → e2 ∈ l → Before e1 e2 entries → Before e1 e2 l := by
  intro fuel
  induction fuel with
  | zero => intro i l h; exact Option.noConfusion h
  | succ fuel ih =>
    intro i l hcol p hpne e1 e2 hp1 hp2 he1 he2 hbef
    obtain ⟨e, L, he, hL, rfl⟩ := collectSubtree_succ_elim hcol
    obtain ⟨hem, hid⟩ := idIndex_spec he
    have hne12 : e1 ≠ e2 := before_ne (List.Nodup.of_map _ hnd) hbef
    obtain ⟨E1, E2, hE, hm1, hm2⟩ := hbef
    have he1m : e1 ∈ entries := by rw [hE]; exact List.mem_append_left _ hm1
    have he2m : e2 ∈ entries := by rw [hE]; exact List.mem_append_right _ hm2
    have he2L : e2 ∈ L := by
      rcases List.mem_cons.mp he2 with rfl | he2L2
      · exfalso
        have he1L : e1 ∈ L := by
          rcases List.mem_cons.mp he1 with rfl | h2
          · exact absurd rfl hne12
          · exact h2
        obtain ⟨c, hc, lc, hlc, he1lc⟩ := (mem_collectChildList hL e1).mp he1L
        rcases reaches_through_parent hnd he1m rfl hp1 (collect_sound hlc e1 he1lc).2
          with hcid | hrp
        · have hpi : p = i := child_id_parent_root hnd hc hcid he1m hp1
          subst hpi
          have : rank e2.id < rank p := hrank e2 he2m p hp2 hpne
          rw [hid] at this
          exact absurd this (lt_irrefl _)
        · have hr1 : rank p ≤ rank c := rank_le_of_reaches hrank hrp
          obtain ⟨ec, hecm, hecid, hecp, hine⟩ := mem_childrenIndex hc
          have hr2 : rank c < rank i := by
            rw [← hecid]
            exact hrank ec hecm i hecp hine
          have hr3 : rank i < rank p := by
            rw [← hid]
            exact hrank e2 he2m p hp2 hpne
          omega
      · exact he2L2
    rcases List.mem_cons.mp he1 with rfl | he1L
    · exact ⟨[e1], L, rfl, List.mem_cons_self _ _, he2L⟩
    · obtain ⟨c, hc, lc, hlc, he1lc⟩ := (mem_collectChildList hL e1).mp he1L
      obtain ⟨c2, hc2, lc2, hlc2, he2lc2⟩ := (mem_collectChildList hL e2).mp he2L
      by_cases hcc : c = c2
      · subst hcc
        rw [hlc] at hlc2
        injection hlc2 with hleq
        subst hleq
        have hbef2 : Before e1 e2 lc :=
          ih hlc p hpne e1 e2 hp1 hp2 he1lc he2lc2 ⟨E1, E2, hE, hm1, hm2⟩
        obtain ⟨A, B, hAB⟩ := collectChildList_split hL hc hlc
        obtain ⟨m1, m2, hm, hem1, hem2⟩ := hbef2
        refine ⟨(e :: A) ++ m1, m2 ++ B, ?_, List.mem_append_right _ hem1,
          List.mem_append_left _ hem2⟩
        rw [hAB, hm]
        simp
      · rcases reaches_through_parent hnd he1m rfl hp1 (collect_sound hlc e1 he1lc).2
          with hcid | hrp
        · rcases reaches_through_parent hnd he2m rfl hp2 (collect_sound hlc2 e2 he2lc2).2
            with hcid2 | hrp2
          · have hpi : p = i := child_id_parent_root hnd hc hcid he1m hp1
            subst hpi
            have hsplitc : childrenIndex entries p = childrenIndex E1 p ++ childrenIndex E2 p := by
              rw [hE, childrenIndex_append]
            have hc1mem : c ∈ childrenIndex E1 p := by
              rw [hcid]
              exact childrenIndex_of_entry hm1 hp1 hpne
            have hc2mem : c2 ∈ childrenIndex E2 p := by
              rw [hcid2]
              exact childrenIndex_of_entry hm2 hp2 hpne
            rw [hsplitc] at hL
            obtain ⟨L1, L2, hL1, hL2, hLeq⟩ := collectChildList_append_elim hL
            have he1L1 : e1 ∈ L1 := (mem_collectChildList hL1 e1).mpr ⟨c, hc1mem, lc, hlc, he1lc⟩
            have he2L2 : e2 ∈ L2 :=
              (mem_collectChildList hL2 e2).mpr ⟨c2, hc2mem, lc2, hlc2, he2lc2⟩
            refine ⟨e :: L1, L2, ?_, List.mem_cons_of_mem _ he1L1, he2L2⟩
            rw [hLeq]
            rfl
          · exfalso
            have hpi : p = i := child_id_parent_root hnd hc hcid he1m hp1
            subst hpi
            exact child_not_reaches_root hrank hc2 hrp2
        · rcases reaches_through_parent hnd he2m rfl hp2 (collect_sound hlc2 e2 he2lc2).2
            with hcid2 | hrp2
          · exfalso
            have hpi : p = i := child_id_parent_root hnd hc2 hcid2 he2m hp2
            subst hpi
            exact child_not_reaches_root hrank hc hrp
          · exact (subtree_disjoint hnd hrank hc hc2 hcc hrp hrp2).elim

/-- C8: for every article id present in the dataset, article_to_json_list returns the
article's own record first, followed by exactly the records whose truthy-parent chain
resolves to that article (soundness and completeness of the pre-order collection), with
no duplicates, every parent occurring before each of its children, and siblings of a
common parent ordered as in the source record list; it returns the NotFound error when
the id is absent from the id index and the InvalidNode error when the record's class is
not the top-level-article class "조". The rank function models acyclicity of the truthy
parent relation (Python recursion would not terminate otherwise) and the fuel bound
models a sufficient recursion budget. -/
theorem article_subtree_correct (entries : List LawEntry) (rank : String → Nat)
    (fuel : Nat) (articleId : String)
    (hnd : (entries.map (fun e => e.id)).Nodup)
    (hrank : ∀ e ∈ entries, ∀ p, e.parent = some p → p ≠ "" → rank e.id < rank p)
    (hfuel : rank articleId < fuel) :
    (idIndex entries articleId = none →
      article_to_json_list entries fuel articleId = .error .notFound) ∧
    (∀ a, idIndex entries articleId = some a → a.rclass ≠ "조" →
      article_to_json_list entries fuel articleId = .error .invalidNode) ∧
    (∀ a, idIndex entries articleId = some a → a.rclass = "조" →
      ∃ l, article_to_json_list entries fuel articleId = .ok l ∧
        l.head? = some a ∧
        (∀ x, x ∈ l ↔ x ∈ entries ∧ Reaches entries articleId x.id) ∧
        (l.map (fun e => e.id)).Nodup ∧
        (∀ pe ∈ l, ∀ ce ∈ l, ce.parent = some pe.id → pe.id ≠ "" → Before pe ce l) ∧
        (∀ p, p ≠ "" → ∀ e1 e2 : LawEntry, e1.parent = some p → e2.parent = some p →
          e1 ∈ l → e2 ∈ l → Before e1 e2 entries → Before e1 e2 l)) := by
  refine ⟨?_, ?_, ?_⟩
  · intro h
    unfold article_to_json_list
    rw [h]
  · intro a ha hcls
    unfold article_to_json_list
    rw [ha]
    show (if a.rclass ≠ "조" then Except.error LawParserError.invalidNode
      else match collectSubtree entries fuel articleId with
        | none => Except.error LawParserError.recursionError
        | some l => Except.ok l) = Except.error LawParserError.invalidNode
    rw [if_pos hcls]
  · intro a ha hcls
    obtain ⟨l, hl⟩ := collect_succeeds hrank ⟨a, ha⟩ hfuel
    have hpos : 0 < fuel := Nat.lt_of_le_of_lt (Nat.zero_le _) hfuel
    obtain ⟨fuel2, rfl⟩ := Nat.exists_eq_succ_of_ne_zero (Nat.pos_iff_ne_zero.mp hpos)
    obtain ⟨e, L, he, hL, hleq⟩ := collectSubtree_succ_elim hl
    rw [ha] at he
    obtain rfl : a = e := Option.some.inj he
    refine ⟨l, ?_, ?_, ?_, ?_, ?_, ?_⟩
    · unfold article_to_json_list
      rw [ha, hl]
      show (if a.rclass ≠ "조" then Except.error LawParserError.invalidNode
        else Except.ok l) = Except.ok l
      rw [if_neg (fun h => h hcls)]
    · rw [hleq]
      rfl
    · intro x
      constructor
      · intro hx
        exact collect_sound hl x hx
      · rintro ⟨hxm, hxr⟩
        exact collect_complete hnd hl hxr x hxm rfl
    · exact collect_nodup hnd hrank hl
    · intro pe hpe ce hce hcp hpne
      exact collect_parent_before hnd hrank hl pe hpe ce hce hcp hpne
    · intro p hp e1 e2 hp1 hp2 h1 h2 hb
      exact collect_sibling_order hnd hrank hl p hp e1 e2 hp1 hp2 h1 h2 hb

/-- Witness for C8: on a concrete three-record dataset (article "A" with child "B" and
grandchild "C") the theorem applies with an explicit rank function and fuel 3, yielding
the full pre-order subtree of "A". -/
theorem article_subtree_correct_witness :
    ∃ l, article_to_json_list sampleLawEntries 3 "A" = .ok l ∧
      l.head? = some ⟨"A", none, "조"⟩ ∧
      (∀ x, x ∈ l ↔ x ∈ sampleLawEntries ∧ Reaches sampleLawEntries "A" x.id) ∧
      (l.map (fun e => e.id)).Nodup ∧
      (∀ pe ∈ l, ∀ ce ∈ l, ce.parent = some pe.id → pe.id ≠ "" → Before pe ce l) ∧
      (∀ p, p ≠ "" → ∀ e1 e2 : LawEntry, e1.parent = some p → e2.parent = some p →
        e1 ∈ l → e2 ∈ l → Before e1 e2 sampleLawEntries → Before e1 e2 l) :=
  (article_subtree_correct sampleLawEntries sampleLawRank 3 "A"
      (by decide)
      (by
        intro e he p hp hpne
        simp only [sampleLawEntries, List.mem_cons, List.not_mem_nil, or_false] at he
        rcases he with rfl | rfl | rfl
        · exact Option.noConfusion hp
        · obtain rfl : "A" = p := Option.some.inj hp
          decide
        · obtain rfl : "B" = p := Option.some.inj hp
          decide)
      (by decide)).2.2 ⟨"A", none, "조"⟩ rfl rfl

end CodeAsAuditors
